import Mathlib

/-!
Shallow embedding of the `graphz` graph library (crates/graphz-core) and
proofs about it.

Modelling conventions:
* `NodeId` (Rust `u32`) is modelled as `Nat`; node ids are only created from
  caller-supplied values and compared for equality, never computed with, so
  the 32-bit bound is irrelevant to every statement below.
* `Weight`/`Position` (Rust `f64`) are modelled as `ℚ`.  The only arithmetic
  the library performs on weights is the saturating truncation `as u32`
  (modelled by `weightToU32`) and storing/reading them back unchanged, so
  rationals are an adequate carrier for every value the claims mention.
* Arrow `RecordBatch` columns are modelled as lists of optional scalars:
  `none` is a null slot.  Arrow's `PrimitiveArray::value` reads the value
  buffer ignoring the validity bitmap, and a null slot's buffer entry is the
  default `0`; `columnValue` below reproduces exactly that.
* Rust `HashMap`/`HashSet` are modelled by association lists with
  newest-first lookup (insert = cons) and by `Finset Nat`; the library only
  uses insert/lookup/contains, which these model exactly.
* `std::collections::BinaryHeap` with the library's reversed `Ord` on cost
  pops an entry of minimal cost; among equal-cost entries the order is
  unspecified in Rust, and the model pops the first entry of minimal cost in
  the underlying list.  Every run examined by a theorem below has a heap
  with at most one entry of minimal cost at each pop, where both semantics
  agree.
* `usize` arithmetic in `is_complete` and `u32` addition in the searches are
  modelled with release-mode wrapping semantics (`% 2 ^ 64`, `% 2 ^ 32`).
* The Rust search loops are `while let` loops; they are modelled with an
  explicit fuel parameter, and theorems below show the chosen fuel is large
  enough on every input, so the fuelled model never hits its cut-off where
  the Rust loop completes.
-/

namespace Graphz

instance {ε α : Type} [DecidableEq ε] [DecidableEq α] : DecidableEq (Except ε α) := fun x y =>
  match x, y with
  | .ok a, .ok b => decidable_of_iff (a = b) ⟨congrArg _, Except.ok.inj⟩
  | .error a, .error b => decidable_of_iff (a = b) ⟨congrArg _, Except.error.inj⟩
  | .ok _, .error _ => .isFalse (fun h => Except.noConfusion h)
  | .error _, .ok _ => .isFalse (fun h => Except.noConfusion h)

abbrev NodeId := Nat

abbrev Weight := ℚ

abbrev Position := ℚ

/-- Arrow primitive data types that appear in the two fixed schemas. -/
inductive DType where
  | uint32
  | float64
deriving DecidableEq, Repr

/-- Display string of the arrow data type (used in `ColumnTypeMismatch`). -/
def DType.show : DType → String
  | .uint32 => "UInt32"
  | .float64 => "Float64"

/-- One arrow column: a typed list of slots, `none` being a null slot. -/
inductive ColumnData where
  | uint32 (values : List (Option NodeId))
  | float64 (values : List (Option Weight))
deriving DecidableEq, Repr

def ColumnData.len : ColumnData → Nat
  | .uint32 vs => vs.length
  | .float64 vs => vs.length

def ColumnData.dtype : ColumnData → DType
  | .uint32 _ => .uint32
  | .float64 _ => .float64

/-- `PrimitiveArray::downcast_ref::<UInt32Type>`. -/
def ColumnData.asUInt32 : ColumnData → Option (List (Option NodeId))
  | .uint32 vs => some vs
  | .float64 _ => none

/-- `PrimitiveArray::downcast_ref::<Float64Type>`. -/
def ColumnData.asFloat64 : ColumnData → Option (List (Option Weight))
  | .float64 vs => some vs
  | .uint32 _ => none

/-- Whether the column has a null slot (arrow: null count ≠ 0). -/
def ColumnData.hasNull : ColumnData → Bool
  | .uint32 vs => vs.any (·.isNone)
  | .float64 vs => vs.any (·.isNone)

/-- One arrow schema field: name, data type, nullability. -/
structure Field where
  name : String
  dtype : DType
  nullable : Bool
deriving DecidableEq, Repr

/-- An arrow `RecordBatch`: a schema (list of fields) plus one column per
field.  Schema equality in arrow is structural on the fields. -/
structure RecordBatch where
  fields : List Field
  columns : List ColumnData
deriving DecidableEq, Repr

/-- `RecordBatch::num_rows`; for batches built by `try_new` this is the
common length of all columns. -/
def RecordBatch.num_rows (rb : RecordBatch) : Nat :=
  (rb.columns.head?.map ColumnData.len).getD 0

/-- `RecordBatch::column_by_name`: the column of the first field with the
given name, if any. -/
def RecordBatch.column_by_name (rb : RecordBatch) (name : String) : Option ColumnData :=
  match rb.fields.findIdx? (fun f => f.name = name) with
  | some i => rb.columns.get? i
  | none => none

/-- The well-formedness every arrow `RecordBatch` satisfies by construction
(`RecordBatch::try_new` validates it): one column per field, all columns of
equal length, column types matching the schema, and no nulls in columns of
non-nullable fields. -/
def RecordBatch.WF (rb : RecordBatch) : Prop :=
  rb.fields.length = rb.columns.length ∧
  (∀ c ∈ rb.columns, c.len = rb.num_rows) ∧
  (∀ p ∈ rb.fields.zip rb.columns,
    p.2.dtype = p.1.dtype ∧ (p.1.nullable = false → p.2.hasNull = false))

instance (rb : RecordBatch) : Decidable rb.WF := by
  unfold RecordBatch.WF
  exact inferInstance

/-- `value buffer read`: arrow `PrimitiveArray::value(idx)` returns the value
buffer entry, which is the primitive default `0` for null slots; out of the
slot range a real arrow array would panic, which no accessor below reaches
because every accessor bounds-checks `idx` against the row count first. -/
def columnValue {α : Type} [Zero α] (vs : List (Option α)) (idx : Nat) : α :=
  ((vs.get? idx).getD none).getD 0

/-! ### Node table (src/node.rs) -/

/-- `NodeDataError` from node.rs. -/
inductive NodeDataError where
  | IndexOutOfBounds
  | ColumnNotFound
  | ColumnTypeMismatch (data_type : String)
deriving DecidableEq, Repr

/-- `Node`: one typed node row. -/
structure Node where
  id : NodeId
  position : Option Position := none
  weight : Option Weight := none
deriving DecidableEq, Repr

/-- `NodeRecordBatch`: the node table, wrapping one record batch. -/
structure NodeRecordBatch where
  batch : RecordBatch
deriving DecidableEq, Repr

/-- `NodeRecordBatch::schema()`: node: uint32 non-null, weight: float64
nullable, position: float64 nullable. -/
def NodeRecordBatch.schema : List Field :=
  [⟨"node", .uint32, false⟩, ⟨"weight", .float64, true⟩, ⟨"position", .float64, true⟩]

def NodeRecordBatch.num_nodes (nb : NodeRecordBatch) : Nat :=
  nb.batch.num_rows

/-- `NodeRecordBatch::node_id`. -/
def NodeRecordBatch.node_id (nb : NodeRecordBatch) (idx : Nat) :
    Except NodeDataError NodeId :=
  if idx ≥ nb.num_nodes then .error .IndexOutOfBounds
  else
    match nb.batch.column_by_name "node" with
    | none => .error .ColumnNotFound
    | some col =>
      match col.asUInt32 with
      | none => .error (.ColumnTypeMismatch col.dtype.show)
      | some vs => .ok (columnValue vs idx)

/-- `NodeRecordBatch::weight`.  Note that the Rust accessor wraps the raw
value-buffer read in `Some(..)` unconditionally: it never returns `None`,
even for a null slot (whose buffer entry is `0.0`). -/
def NodeRecordBatch.weight (nb : NodeRecordBatch) (idx : Nat) :
    Except NodeDataError (Option Weight) :=
  if idx ≥ nb.num_nodes then .error .IndexOutOfBounds
  else
    match nb.batch.column_by_name "weight" with
    | none => .error .ColumnNotFound
    | some col =>
      match col.asFloat64 with
      | none => .error (.ColumnTypeMismatch col.dtype.show)
      | some vs => .ok (some (columnValue vs idx))

/-- `NodeRecordBatch::position`; same `Some(..)` wrapping as `weight`. -/
def NodeRecordBatch.position (nb : NodeRecordBatch) (idx : Nat) :
    Except NodeDataError (Option Position) :=
  if idx ≥ nb.num_nodes then .error .IndexOutOfBounds
  else
    match nb.batch.column_by_name "position" with
    | none => .error .ColumnNotFound
    | some col =>
      match col.asFloat64 with
      | none => .error (.ColumnTypeMismatch col.dtype.show)
      | some vs => .ok (some (columnValue vs idx))

/-- `NodeRecordBatch::node`: rebuild the row from the three accessors. -/
def NodeRecordBatch.node (nb : NodeRecordBatch) (idx : Nat) :
    Except NodeDataError Node :=
  if idx ≥ nb.num_nodes then .error .IndexOutOfBounds
  else do
    let node_id ← nb.node_id idx
    let weight ← nb.weight idx
    let position ← nb.position idx
    return { id := node_id, weight := weight, position := position }

/-- `impl From<Vec<Node>> for NodeRecordBatch`: ids go into a non-null uint32
column; weights and positions keep their optionality as the validity bitmap
of nullable float64 columns. -/
def NodeRecordBatch.ofNodes (nodes : List Node) : NodeRecordBatch :=
  ⟨⟨NodeRecordBatch.schema,
    [.uint32 (nodes.map (fun n => some n.id)),
     .float64 (nodes.map (fun n => n.weight)),
     .float64 (nodes.map (fun n => n.position))]⟩⟩

/-! ### Edge table (src/edge.rs) -/

/-- `EdgeDataError` from edge.rs (the `FailedToAddEdges` payload is dropped;
no claim concerns it). -/
inductive EdgeDataError where
  | IndexOutOfBounds
  | ColumnNotFound
  | ColumnTypeMismatch (data_type : String)
  | FailedToAddEdges
deriving DecidableEq, Repr

/-- `Edge`: one typed edge row. -/
structure Edge where
  source_id : NodeId
  target_id : NodeId
  weight : Option Weight := none
deriving DecidableEq, Repr

/-- `EdgeRecordBatch`: the edge table, wrapping one record batch. -/
structure EdgeRecordBatch where
  batch : RecordBatch
deriving DecidableEq, Repr

/-- `EdgeRecordBatch::schema()`: source: uint32 non-null, target: uint32
non-null, weight: float64 nullable. -/
def EdgeRecordBatch.schema : List Field :=
  [⟨"source", .uint32, false⟩, ⟨"target", .uint32, false⟩, ⟨"weight", .float64, true⟩]

def EdgeRecordBatch.num_edges (eb : EdgeRecordBatch) : Nat :=
  eb.batch.num_rows

/-- `EdgeRecordBatch::source_id`. -/
def EdgeRecordBatch.source_id (eb : EdgeRecordBatch) (idx : Nat) :
    Except EdgeDataError NodeId :=
  if idx ≥ eb.num_edges then .error .IndexOutOfBounds
  else
    match eb.batch.column_by_name "source" with
    | none => .error .ColumnNotFound
    | some col =>
      match col.asUInt32 with
      | none => .error (.ColumnTypeMismatch col.dtype.show)
      | some vs => .ok (columnValue vs idx)

/-- `EdgeRecordBatch::target_id`. -/
def EdgeRecordBatch.target_id (eb : EdgeRecordBatch) (idx : Nat) :
    Except EdgeDataError NodeId :=
  if idx ≥ eb.num_edges then .error .IndexOutOfBounds
  else
    match eb.batch.column_by_name "target" with
    | none => .error .ColumnNotFound
    | some col =>
      match col.asUInt32 with
      | none => .error (.ColumnTypeMismatch col.dtype.show)
      | some vs => .ok (columnValue vs idx)

/-- `EdgeRecordBatch::weight`; `data.value(idx).into()` wraps the raw value
in `Some(..)` unconditionally, exactly as in the node table. -/
def EdgeRecordBatch.weight (eb : EdgeRecordBatch) (idx : Nat) :
    Except EdgeDataError (Option Weight) :=
  if idx ≥ eb.num_edges then .error .IndexOutOfBounds
  else
    match eb.batch.column_by_name "weight" with
    | none => .error .ColumnNotFound
    | some col =>
      match col.asFloat64 with
      | none => .error (.ColumnTypeMismatch col.dtype.show)
      | some vs => .ok (some (columnValue vs idx))

/-- `EdgeRecordBatch::edge`. -/
def EdgeRecordBatch.edge (eb : EdgeRecordBatch) (idx : Nat) :
    Except EdgeDataError Edge :=
  if idx ≥ eb.num_edges then .error .IndexOutOfBounds
  else do
    let source_id ← eb.source_id idx
    let target_id ← eb.target_id idx
    let weight ← eb.weight idx
    return { source_id := source_id, target_id := target_id, weight := weight }

/-- The body of the `neighbors` row scan, over an explicit index list. -/
def EdgeRecordBatch.neighborsAux (eb : EdgeRecordBatch) (node : NodeId) :
    List Nat → Except EdgeDataError (List NodeId)
  | [] => .ok []
  | i :: rest => do
    let e ← eb.edge i
    let tail ← eb.neighborsAux node rest
    if e.source_id = node then return e.target_id :: tail else return tail

/-- `EdgeRecordBatch::neighbors`: full linear scan in row order. -/
def EdgeRecordBatch.neighbors (eb : EdgeRecordBatch) (node : NodeId) :
    Except EdgeDataError (List NodeId) :=
  eb.neighborsAux node (List.range eb.num_edges)

/-- The body of the `neighbors_with_weights` row scan;
`edge.weight.unwrap_or_default()` supplies `0.0` for an absent weight. -/
def EdgeRecordBatch.neighborsWWAux (eb : EdgeRecordBatch) (node : NodeId) :
    List Nat → Except EdgeDataError (List (NodeId × Weight))
  | [] => .ok []
  | i :: rest => do
    let e ← eb.edge i
    let tail ← eb.neighborsWWAux node rest
    if e.source_id = node then return (e.target_id, e.weight.getD 0) :: tail
    else return tail

/-- `EdgeRecordBatch::neighbors_with_weights`: full linear scan in row
order. -/
def EdgeRecordBatch.neighbors_with_weights (eb : EdgeRecordBatch) (node : NodeId) :
    Except EdgeDataError (List (NodeId × Weight)) :=
  eb.neighborsWWAux node (List.range eb.num_edges)

/-- `impl From<Vec<Edge>> for EdgeRecordBatch`: source/target ids go into
non-null uint32 columns; `edge.weight.unwrap_or_default()` materialises an
absent weight as `0.0`, so the weight column of a converted row list has no
null slot at all. -/
def EdgeRecordBatch.ofEdges (edges : List Edge) : EdgeRecordBatch :=
  ⟨⟨EdgeRecordBatch.schema,
    [.uint32 (edges.map (fun e => some e.source_id)),
     .uint32 (edges.map (fun e => some e.target_id)),
     .float64 (edges.map (fun e => some (e.weight.getD 0)))]⟩⟩

/-! ### Graph (src/graph.rs) -/

/-- `GraphError` from graph.rs. -/
inductive GraphError where
  | InvalidNodeSchema
  | InvalidEdgeSchema
  | EmptyGraph (name : String)
deriving DecidableEq, Repr

/-- `Graph`: one node table plus one edge table. -/
structure Graph where
  node_record_batch : NodeRecordBatch
  edge_record_batch : EdgeRecordBatch
deriving DecidableEq, Repr

/-- `Graph::from_arrow_record_batches`: node schema checked first, then the
edge schema; both compared structurally against the fixed expected schema. -/
def Graph.from_arrow_record_batches (nb : NodeRecordBatch) (eb : EdgeRecordBatch) :
    Except GraphError Graph :=
  if NodeRecordBatch.schema ≠ nb.batch.fields then .error .InvalidNodeSchema
  else if EdgeRecordBatch.schema ≠ eb.batch.fields then .error .InvalidEdgeSchema
  else .ok ⟨nb, eb⟩

def Graph.num_nodes (g : Graph) : Nat := g.node_record_batch.num_nodes

def Graph.node_id (g : Graph) (idx : Nat) : Except NodeDataError NodeId :=
  g.node_record_batch.node_id idx

def Graph.num_edges (g : Graph) : Nat := g.edge_record_batch.num_edges

def Graph.source_id (g : Graph) (idx : Nat) : Except EdgeDataError NodeId :=
  g.edge_record_batch.source_id idx

def Graph.target_id (g : Graph) (idx : Nat) : Except EdgeDataError NodeId :=
  g.edge_record_batch.target_id idx

def Graph.weight (g : Graph) (idx : Nat) : Except EdgeDataError (Option Weight) :=
  g.edge_record_batch.weight idx

def Graph.neighbors (g : Graph) (node : NodeId) : Except EdgeDataError (List NodeId) :=
  g.edge_record_batch.neighbors node

def Graph.neighbors_with_weights (g : Graph) (node : NodeId) :
    Except EdgeDataError (List (NodeId × Weight)) :=
  g.edge_record_batch.neighbors_with_weights node

/-- The state of `GraphBuilder` at the `build()` call: each field is `none`
when its setter was never invoked. -/
structure GraphBuilder where
  nodes : Option (List Node) := none
  edges : Option (List Edge) := none
deriving DecidableEq, Repr

/-- Node derivation in `GraphBuilder::build` when no node list was supplied:
distinct ids of edge endpoints in first-seen order, deduplicated by linear
scan. -/
def deriveNodes (edges : List Edge) : List Node :=
  edges.foldl
    (fun nodes e =>
      let nodes :=
        if nodes.any (fun n => n.id = e.source_id) then nodes
        else nodes ++ [{ id := e.source_id }]
      if nodes.any (fun n => n.id = e.target_id) then nodes
      else nodes ++ [{ id := e.target_id }])
    []

/-- `GraphBuilder::build`: fails with `EmptyGraph` exactly when the edge
setter was never invoked; otherwise converts the row lists to tables and
delegates to `from_arrow_record_batches`. -/
def GraphBuilder.build (b : GraphBuilder) : Except GraphError Graph :=
  match b.edges with
  | none => .error (.EmptyGraph "no edges")
  | some edges =>
    let nodes :=
      match b.nodes with
      | some nodes => nodes
      | none => deriveNodes edges
    Graph.from_arrow_record_batches (NodeRecordBatch.ofNodes nodes)
      (EdgeRecordBatch.ofEdges edges)

/-- A graph as every API construction path produces it: both tables match
the fixed expected schema (checked by `from_arrow_record_batches`) and both
wrapped batches satisfy the arrow invariants (`RecordBatch::try_new`). -/
def Graph.WF (g : Graph) : Prop :=
  g.node_record_batch.batch.fields = NodeRecordBatch.schema ∧
  g.edge_record_batch.batch.fields = EdgeRecordBatch.schema ∧
  g.node_record_batch.batch.WF ∧ g.edge_record_batch.batch.WF

instance (g : Graph) : Decidable g.WF := by
  unfold Graph.WF
  exact inferInstance

/-! ### Total views of the accessors

The search algorithms call `graph.source_id(idx).unwrap()`,
`graph.target_id(idx).unwrap()` and
`graph.neighbors_with_weights(node).unwrap()`.  On every `Graph.WF` graph —
i.e. on every graph the API can construct — these accessors return `Ok` for
the in-range indices the loops use, so `unwrap` never panics; the `D`
projections below are those `Ok` values (with an arbitrary default on the
unreachable error branch). -/

def Graph.source_idD (g : Graph) (idx : Nat) : NodeId :=
  (g.source_id idx).toOption.getD 0

def Graph.target_idD (g : Graph) (idx : Nat) : NodeId :=
  (g.target_id idx).toOption.getD 0

def Graph.neighborsWWD (g : Graph) (node : NodeId) : List (NodeId × Weight) :=
  (g.neighbors_with_weights node).toOption.getD []

/-- The inner edge scan of BFS and DFS: every row whose source equals
`current`, in row order, mapped to its target. -/
def Graph.scanSuccessors (g : Graph) (current : NodeId) : List NodeId :=
  ((List.range g.num_edges).filter (fun idx => g.source_idD idx = current)).map
    (fun idx => g.target_idD idx)

/-! ### Breadth-first search (src/breath_first_search.rs) -/

/-- Fuel that provably suffices for the BFS queue loop on every input (see
the termination theorem): the queue is seeded with one entry, at most
`num_edges + 1` distinct nodes are ever expanded, and each expansion
enqueues at most `num_edges` entries. -/
def bfsFuel (g : Graph) : Nat :=
  (g.num_edges + 1) * (g.num_edges + 1) + 2

/-- The `while let Some((current, current_path)) = queue.pop_front()` loop of
`breath_first_search`, with explicit fuel.  The queue holds
`(node, path so far)` pairs, head first; the visited check happens at
dequeue time; expansion appends `(target, path + target)` for every
outgoing edge in row order.  Result `none` is the fuel cut-off (proved
unreachable), `some none` is queue exhaustion, `some (some p)` is a found
path. -/
def bfsAux (g : Graph) (endId : NodeId) :
    Nat → List (NodeId × List NodeId) → Finset NodeId → Option (Option (List NodeId))
  | 0, _, _ => none
  | _ + 1, [], _ => some none
  | fuel + 1, (current, path) :: rest, visited =>
    if current = endId then some (some path)
    else if current ∈ visited then bfsAux g endId fuel rest visited
    else
      bfsAux g endId fuel
        (rest ++ (g.scanSuccessors current).map (fun t => (t, path ++ [t])))
        (insert current visited)

/-- `breath_first_search(graph, start, end)`. -/
def breath_first_search (g : Graph) (start endId : NodeId) : Option (List NodeId) :=
  (bfsAux g endId (bfsFuel g) [(start, [start])] ∅).join

/-! ### Depth-first search (src/depth_first_search.rs) -/

def dfsFuel (g : Graph) : Nat :=
  (g.num_edges + 1) * (g.num_edges + 1) + 2

/-- The `while let Some((current, current_path)) = stack.pop()` loop of
`depth_first_search`.  The stack top is the list head.  Unlike BFS, a
neighbour already visited is filtered out before pushing; the edge scan
pushes matches in row order, so the last match ends up on top of the stack
(hence `.reverse` before prepending). -/
def dfsAux (g : Graph) (endId : NodeId) :
    Nat → List (NodeId × List NodeId) → Finset NodeId → Option (Option (List NodeId))
  | 0, _, _ => none
  | _ + 1, [], _ => some none
  | fuel + 1, (current, path) :: rest, visited =>
    if current = endId then some (some path)
    else if current ∈ visited then dfsAux g endId fuel rest visited
    else
      let visited' := insert current visited
      dfsAux g endId fuel
        ((((g.scanSuccessors current).filter (fun t => t ∉ visited')).map
            (fun t => (t, path ++ [t]))).reverse ++ rest)
        visited'

/-- `depth_first_search(graph, start, end)`. -/
def depth_first_search (g : Graph) (start endId : NodeId) : Option (List NodeId) :=
  (dfsAux g endId (dfsFuel g) [(start, [start])] ∅).join

/-! ### Dijkstra search and best-first search (src/dijkstra_search.rs,
src/a_search.rs) -/

/-- The Rust `weight as u32` cast from `f64`: truncation toward zero,
saturating at `0` and `u32::MAX`. -/
def weightToU32 (w : Weight) : Nat :=
  if w < 0 then 0 else min w.floor.toNat (2 ^ 32 - 1)

/-- Wrapping `u32` addition (`cost + weight as u32` in release mode). -/
def u32add (a b : Nat) : Nat := (a + b) % 2 ^ 32

/-- Pop of the cost-ordered `BinaryHeap`: an entry of minimal cost (the
library's `Ord` on `State` reverses the comparison of `cost` only).  Among
equal-cost entries Rust's pop order is unspecified; the model takes the
first minimal entry in the list. -/
def heapPopMin : List (Nat × NodeId) → Option ((Nat × NodeId) × List (Nat × NodeId))
  | [] => none
  | x :: xs =>
    match heapPopMin xs with
    | none => some (x, [])
    | some (m, rest) => if x.1 ≤ m.1 then some (x, xs) else some (m, x :: rest)

/-- One neighbour relaxation of `dijkstra_search`: state is
`(dist, prev, heap)`; `dist`/`prev` are hash maps modelled as newest-first
association lists.  Push and update happen only if the new cost improves
the recorded distance (or none is recorded). -/
def dijkstraRelax (position : NodeId) (cost : Nat)
    (st : List (NodeId × Nat) × List (NodeId × NodeId) × List (Nat × NodeId))
    (nb : NodeId × Weight) :
    List (NodeId × Nat) × List (NodeId × NodeId) × List (Nat × NodeId) :=
  let (dist, prev, heap) := st
  let next_cost := u32add cost (weightToU32 nb.2)
  if ¬ (dist.lookup nb.1).isSome ∨ next_cost < (dist.lookup nb.1).getD 0 then
    ((nb.1, next_cost) :: dist, (nb.1, position) :: prev, (next_cost, nb.1) :: heap)
  else st

/-- Fuel that provably suffices for both priority-queue loops on every
input: each relaxation strictly decreases a recorded `u32` distance (all
below `2 ^ 32`) of one of the at most `num_edges + 1` relevant nodes, and
every other iteration shrinks the heap. -/
def searchFuel (g : Graph) : Nat :=
  (g.num_edges + 1) * 2 ^ 32 + 2

/-- The `while let Some(State { cost, position }) = heap.pop()` loop of
`dijkstra_search`, with explicit fuel.  On reaching `end` it returns the
`prev` map for path reconstruction (`some (some prev)`); `some none` is
heap exhaustion; `none` is the fuel cut-off (proved unreachable).  A popped
entry whose cost exceeds the recorded distance is skipped as stale
(`dist[&position]` is always present in Rust — every pushed position is
inserted into `dist` — so the `getD 0` default is never read). -/
def dijkstraAux (g : Graph) (endId : NodeId) :
    Nat → List (NodeId × Nat) → List (NodeId × NodeId) → List (Nat × NodeId) →
    Option (Option (List (NodeId × NodeId)))
  | 0, _, _, _ => none
  | fuel + 1, dist, prev, heap =>
    match heapPopMin heap with
    | none => some none
    | some ((cost, position), heap') =>
      if position = endId then some (some prev)
      else if (dist.lookup position).getD 0 < cost then
        dijkstraAux g endId fuel dist prev heap'
      else
        let st := (g.neighborsWWD position).foldl (dijkstraRelax position cost)
          (dist, prev, heap')
        dijkstraAux g endId fuel st.1 st.2.1 st.2.2

/-- The `while let Some(&previous) = prev.get(&current)` path reconstruction
walk: push each predecessor, then reverse.  The walk visits distinct keys
of `prev` when the predecessor chain is acyclic, so `prev.length + 1` fuel
suffices there; on a cyclic chain the Rust loop never terminates, which the
model maps to `none`. -/
def reconstructAux (prev : List (NodeId × NodeId)) :
    Nat → NodeId → List NodeId → Option (List NodeId)
  | 0, _, _ => none
  | fuel + 1, current, path =>
    match prev.lookup current with
    | none => some path.reverse
    | some previous => reconstructAux prev fuel previous (path ++ [previous])

/-- `dijkstra_search(graph, start, end)`. -/
def dijkstra_search (g : Graph) (start endId : NodeId) : Option (List NodeId) :=
  match dijkstraAux g endId (searchFuel g) [(start, 0)] [] [(0, start)] with
  | some (some prev) => reconstructAux prev (prev.length + 1) endId [endId]
  | _ => none

/-- One neighbour relaxation of `a_search`: state is
`(g_score, came_from, open_set)`.  The tentative score is computed from the
recorded `g_score` of the popped position (always present in Rust), and the
comparison reads the neighbour's recorded score with default `u32::MAX`. -/
def aRelax (position : NodeId) (base : Nat)
    (st : List (NodeId × Nat) × List (NodeId × NodeId) × List (Nat × NodeId))
    (nb : NodeId × Weight) :
    List (NodeId × Nat) × List (NodeId × NodeId) × List (Nat × NodeId) :=
  let (gScore, cameFrom, openSet) := st
  let tentative := u32add base (weightToU32 nb.2)
  if tentative < (gScore.lookup nb.1).getD (2 ^ 32 - 1) then
    ((nb.1, tentative) :: gScore, (nb.1, position) :: cameFrom,
      (tentative, nb.1) :: openSet)
  else st

/-- The `while let Some(State { cost: _, position }) = open_set.pop()` loop
of `a_search`: structurally Dijkstra without the stale-entry skip, and with
the tentative score based on `g_score[&position]` instead of the popped
cost. -/
def aAux (g : Graph) (endId : NodeId) :
    Nat → List (NodeId × Nat) → List (NodeId × NodeId) → List (Nat × NodeId) →
    Option (Option (List (NodeId × NodeId)))
  | 0, _, _, _ => none
  | fuel + 1, gScore, cameFrom, openSet =>
    match heapPopMin openSet with
    | none => some none
    | some ((_, position), openSet') =>
      if position = endId then some (some cameFrom)
      else
        let st := (g.neighborsWWD position).foldl
          (aRelax position ((gScore.lookup position).getD 0)) (gScore, cameFrom, openSet')
        aAux g endId fuel st.1 st.2.1 st.2.2

/-- `a_search(graph, start, end)`. -/
def a_search (g : Graph) (start endId : NodeId) : Option (List NodeId) :=
  match aAux g endId (searchFuel g) [(start, 0)] [] [(0, start)] with
  | some (some cameFrom) => reconstructAux cameFrom (cameFrom.length + 1) endId [endId]
  | _ => none

/-! ### Structural predicates (src/graph_type.rs) -/

/-- `usize` wrapping (release-mode underflow of `num_nodes - 1`). -/
def usizeSub1 (n : Nat) : Nat := (n + (2 ^ 64 - 1)) % 2 ^ 64

/-- `Graph::is_complete`: compare `num_edges` with
`(num_nodes * (num_nodes - 1)) / 2` under `usize` wrapping semantics, then
force `false` for exactly one node. -/
def Graph.is_complete (g : Graph) : Bool :=
  let num_nodes := g.num_nodes
  let num_edges := g.num_edges
  let expected_edges := num_nodes * usizeSub1 num_nodes % 2 ^ 64 / 2
  if expected_edges ≠ num_edges then false
  else if num_nodes = 1 then false
  else true

def Graph.node_idD (g : Graph) (idx : Nat) : NodeId :=
  (g.node_id idx).toOption.getD 0

/-- `Graph::is_connected`: false on zero nodes; otherwise sort all node ids
ascending (Rust `Vec::sort`, modelled by the extensionally equal stable
`insertionSort`) and ask BFS for a path from the first to the last. -/
def Graph.is_connected (g : Graph) : Bool :=
  if g.num_nodes = 0 then false
  else
    let node_ids := ((List.range g.num_nodes).map (fun idx => g.node_idD idx)).insertionSort (· ≤ ·)
    (breath_first_search g (node_ids.head?.getD 0) (node_ids.getLast?.getD 0)).isSome

/-! ### Derived notions used to state and prove the claims -/

/-- The graph has a directed edge `u → v`: some edge row has source `u` and
target `v`. -/
def Graph.HasEdge (g : Graph) (u v : NodeId) : Prop :=
  ∃ idx < g.num_edges, g.source_idD idx = u ∧ g.target_idD idx = v

/-- `GPath g u w q`: `q` is a valid directed path in `g` from `u` to `w`
(node sequence, both endpoints included, consecutive nodes joined by an
edge row of `g`). -/
inductive GPath (g : Graph) : NodeId → NodeId → List NodeId → Prop where
  | single (u : NodeId) : GPath g u u [u]
  | cons {u v w : NodeId} {q : List NodeId} :
      g.HasEdge u v → GPath g v w q → GPath g u w (u :: q)

/-- Invariant of the BFS queue's carried-path lengths: nondecreasing, and
every entry at most one more than the head (FIFO explores level by
level). -/
def SortOK (L : List Nat) : Prop :=
  L.Sorted (· ≤ ·) ∧ ∀ x ∈ L, ∀ y ∈ L.head?, x ≤ y + 1

/-- The set of node ids that can ever appear in a traversal frontier seeded
at `s`: the start plus every edge target. -/
def Graph.frontierCand (g : Graph) (s : NodeId) : Finset NodeId :=
  insert s ((List.range g.num_edges).map g.target_idD).toFinset

/-- Termination measure of the BFS/DFS loops: expanding a node removes it
from the unvisited candidates at the price of at most `num_edges` new
entries; any other step shrinks the queue/stack. -/
def bfsMeasure (g : Graph) (s : NodeId) (Q : List (NodeId × List NodeId))
    (V : Finset NodeId) : Nat :=
  ((g.frontierCand s) \ V).card * (g.num_edges + 1) + Q.length

/-- Termination measure (potential) of the Dijkstra / best-first loops: the
sum over candidate nodes of the recorded distance, a missing record
counting as `2 ^ 32` (strictly above every storable `u32`). -/
def distPhi (g : Graph) (s : NodeId) (dist : List (NodeId × Nat)) : Nat :=
  ∑ v ∈ g.frontierCand s, (dist.lookup v).getD (2 ^ 32)

/-- The edge rows `(i → i+1)` for `i = 1..k` (weights absent). -/
def chainEdges (k : Nat) : List Edge :=
  (List.range' 1 k).map (fun i => { source_id := i, target_id := i + 1 })

/-- Total row read used by the lemmas (arbitrary row on the unreachable
out-of-range branch). -/
def edgeAtD (es : List Edge) (i : Nat) : Edge :=
  es.getD i { source_id := 0, target_id := 0 }

/-- The `dist`/`g_score` map of a Dijkstra or best-first run on the chain
graph after node `i` was relaxed: nodes `1..i` recorded at distance `0`,
newest first. -/
def chainDist (i : Nat) : List (NodeId × Nat) :=
  ((List.range' 1 i).map (fun m => (m, 0))).reverse

/-- The `prev`/`came_from` map of such a run after node `i` was relaxed:
`m ↦ m − 1` for `m = 2..i`, newest first. -/
def chainPrev (i : Nat) : List (NodeId × NodeId) :=
  ((List.range' 2 (i - 1)).map (fun m => (m, m - 1))).reverse

/-- A graph with zero nodes and zero edges, as `from_arrow_record_batches`
accepts it (see the completeness counterexample). -/
def zeroGraph : Graph :=
  { node_record_batch := NodeRecordBatch.ofNodes [],
    edge_record_batch := EdgeRecordBatch.ofEdges [] }

/-- A two-node graph with its single required edge (complete). -/
def twoGraph : Graph :=
  { node_record_batch := NodeRecordBatch.ofNodes [{ id := 1 }, { id := 2 }],
    edge_record_batch := EdgeRecordBatch.ofEdges [{ source_id := 1, target_id := 2 }] }

/-! ## Theorems -/

/-! ### Computation lemmas for converted tables -/

theorem ofNodes_num_nodes (nodes : List Node) :
    (NodeRecordBatch.ofNodes nodes).num_nodes = nodes.length := by
  simp [NodeRecordBatch.ofNodes, NodeRecordBatch.num_nodes, RecordBatch.num_rows,
    ColumnData.len]

theorem ofEdges_num_edges (edges : List Edge) :
    (EdgeRecordBatch.ofEdges edges).num_edges = edges.length := by
  simp [EdgeRecordBatch.ofEdges, EdgeRecordBatch.num_edges, RecordBatch.num_rows,
    ColumnData.len]

theorem ofNodes_col_node (nodes : List Node) :
    (NodeRecordBatch.ofNodes nodes).batch.column_by_name "node" =
      some (.uint32 (nodes.map (fun n => some n.id))) := rfl

theorem ofNodes_col_weight (nodes : List Node) :
    (NodeRecordBatch.ofNodes nodes).batch.column_by_name "weight" =
      some (.float64 (nodes.map (fun n => n.weight))) := rfl

theorem ofNodes_col_position (nodes : List Node) :
    (NodeRecordBatch.ofNodes nodes).batch.column_by_name "position" =
      some (.float64 (nodes.map (fun n => n.position))) := rfl

theorem ofEdges_col_source (edges : List Edge) :
    (EdgeRecordBatch.ofEdges edges).batch.column_by_name "source" =
      some (.uint32 (edges.map (fun e => some e.source_id))) := rfl

theorem ofEdges_col_target (edges : List Edge) :
    (EdgeRecordBatch.ofEdges edges).batch.column_by_name "target" =
      some (.uint32 (edges.map (fun e => some e.target_id))) := rfl

theorem ofEdges_col_weight (edges : List Edge) :
    (EdgeRecordBatch.ofEdges edges).batch.column_by_name "weight" =
      some (.float64 (edges.map (fun e => some (e.weight.getD 0)))) := rfl

theorem columnValue_map_some {α β : Type} [Zero β] (f : α → β) (l : List α) (idx : Nat)
    (h : idx < l.length) :
    columnValue (l.map (fun x => some (f x))) idx = f (l.get ⟨idx, h⟩) := by
  simp [columnValue, List.getElem?_map, List.getElem?_eq_getElem h]

theorem columnValue_map_opt {α β : Type} [Zero β] (f : α → Option β) (l : List α) (idx : Nat)
    (h : idx < l.length) :
    columnValue (l.map (fun x => f x)) idx = (f (l.get ⟨idx, h⟩)).getD 0 := by
  simp [columnValue, List.getElem?_map, List.getElem?_eq_getElem h]

theorem ofNodes_node_id (nodes : List Node) (idx : Nat) (h : idx < nodes.length) :
    (NodeRecordBatch.ofNodes nodes).node_id idx = .ok (nodes.get ⟨idx, h⟩).id := by
  rw [NodeRecordBatch.node_id, ofNodes_num_nodes, if_neg (by omega), ofNodes_col_node]
  simp [ColumnData.asUInt32, columnValue_map_some (fun n => n.id) nodes idx h]

theorem ofNodes_weight (nodes : List Node) (idx : Nat) (h : idx < nodes.length) :
    (NodeRecordBatch.ofNodes nodes).weight idx =
      .ok (some ((nodes.get ⟨idx, h⟩).weight.getD 0)) := by
  rw [NodeRecordBatch.weight, ofNodes_num_nodes, if_neg (by omega), ofNodes_col_weight]
  simp [ColumnData.asFloat64, columnValue_map_opt (fun n => n.weight) nodes idx h]

theorem ofNodes_position (nodes : List Node) (idx : Nat) (h : idx < nodes.length) :
    (NodeRecordBatch.ofNodes nodes).position idx =
      .ok (some ((nodes.get ⟨idx, h⟩).position.getD 0)) := by
  rw [NodeRecordBatch.position, ofNodes_num_nodes, if_neg (by omega), ofNodes_col_position]
  simp [ColumnData.asFloat64, columnValue_map_opt (fun n => n.position) nodes idx h]

theorem ofNodes_node (nodes : List Node) (idx : Nat) (h : idx < nodes.length) :
    (NodeRecordBatch.ofNodes nodes).node idx =
      .ok { id := (nodes.get ⟨idx, h⟩).id,
            weight := some ((nodes.get ⟨idx, h⟩).weight.getD 0),
            position := some ((nodes.get ⟨idx, h⟩).position.getD 0) } := by
  rw [NodeRecordBatch.node, ofNodes_num_nodes, if_neg (by omega)]
  rw [ofNodes_node_id nodes idx h, ofNodes_weight nodes idx h, ofNodes_position nodes idx h]
  rfl

theorem ofEdges_source_id (edges : List Edge) (idx : Nat) (h : idx < edges.length) :
    (EdgeRecordBatch.ofEdges edges).source_id idx = .ok (edges.get ⟨idx, h⟩).source_id := by
  rw [EdgeRecordBatch.source_id, ofEdges_num_edges, if_neg (by omega), ofEdges_col_source]
  simp [ColumnData.asUInt32, columnValue_map_some (fun e => e.source_id) edges idx h]

theorem ofEdges_target_id (edges : List Edge) (idx : Nat) (h : idx < edges.length) :
    (EdgeRecordBatch.ofEdges edges).target_id idx = .ok (edges.get ⟨idx, h⟩).target_id := by
  rw [EdgeRecordBatch.target_id, ofEdges_num_edges, if_neg (by omega), ofEdges_col_target]
  simp [ColumnData.asUInt32, columnValue_map_some (fun e => e.target_id) edges idx h]

theorem ofEdges_weight (edges : List Edge) (idx : Nat) (h : idx < edges.length) :
    (EdgeRecordBatch.ofEdges edges).weight idx =
      .ok (some ((edges.get ⟨idx, h⟩).weight.getD 0)) := by
  rw [EdgeRecordBatch.weight, ofEdges_num_edges, if_neg (by omega), ofEdges_col_weight]
  simp [ColumnData.asFloat64,
    columnValue_map_some (fun e => e.weight.getD 0) edges idx h]

theorem ofEdges_edge (edges : List Edge) (idx : Nat) (h : idx < edges.length) :
    (EdgeRecordBatch.ofEdges edges).edge idx =
      .ok { source_id := (edges.get ⟨idx, h⟩).source_id,
            target_id := (edges.get ⟨idx, h⟩).target_id,
            weight := some ((edges.get ⟨idx, h⟩).weight.getD 0) } := by
  rw [EdgeRecordBatch.edge, ofEdges_num_edges, if_neg (by omega)]
  rw [ofEdges_source_id edges idx h, ofEdges_target_id edges idx h, ofEdges_weight edges idx h]
  rfl

theorem from_arrow_ofNodes_ofEdges (ns : List Node) (es : List Edge) :
    Graph.from_arrow_record_batches (NodeRecordBatch.ofNodes ns) (EdgeRecordBatch.ofEdges es) =
      .ok ⟨NodeRecordBatch.ofNodes ns, EdgeRecordBatch.ofEdges es⟩ := rfl

theorem build_some (nopt : Option (List Node)) (es : List Edge) :
    GraphBuilder.build ⟨nopt, some es⟩ =
      .ok ⟨NodeRecordBatch.ofNodes (nopt.getD (deriveNodes es)), EdgeRecordBatch.ofEdges es⟩ := by
  cases nopt <;> rfl

/-! ### C2 -/

/-- C2 (counterexample): for the single node row `{id := 7}` whose weight and
position were absent, the weight and position accessors return
`Ok(Some(0.0))`, not `Ok(None)`; likewise for an edge row with absent
weight.  The claim that the accessor returns "no value" for such rows is
false. -/
theorem c2_counterexample :
    (NodeRecordBatch.ofNodes [{ id := 7 }]).weight 0 = .ok (some 0) ∧
    (NodeRecordBatch.ofNodes [{ id := 7 }]).weight 0 ≠ .ok none ∧
    (NodeRecordBatch.ofNodes [{ id := 7 }]).position 0 = .ok (some 0) ∧
    (EdgeRecordBatch.ofEdges [{ source_id := 1, target_id := 2 }]).weight 0 = .ok (some 0) ∧
    (EdgeRecordBatch.ofEdges [{ source_id := 1, target_id := 2 }]).weight 0 ≠ .ok none := by
  decide

/-- C2 (amended): for every row of a table converted from a row list the
weight/position accessor returns `Some(w.unwrap_or(0.0))`: an absent
weight or position is materialised as `0.0` and read back as present, so
optionality is never observable through the accessors (they never return
"no value" for an in-range row). -/
theorem c2_absent_weight_reads_as_zero (nodes : List Node) (edges : List Edge)
    (i j : Nat) (hi : i < nodes.length) (hj : j < edges.length) :
    (NodeRecordBatch.ofNodes nodes).weight i =
      .ok (some ((nodes.get ⟨i, hi⟩).weight.getD 0)) ∧
    (NodeRecordBatch.ofNodes nodes).position i =
      .ok (some ((nodes.get ⟨i, hi⟩).position.getD 0)) ∧
    (EdgeRecordBatch.ofEdges edges).weight j =
      .ok (some ((edges.get ⟨j, hj⟩).weight.getD 0)) :=
  ⟨ofNodes_weight nodes i hi, ofNodes_position nodes i hi, ofEdges_weight edges j hj⟩

/-- C2 witness: the amended statement at one concrete table. -/
theorem c2_witness :
    (NodeRecordBatch.ofNodes [{ id := 5 }]).weight 0 = .ok (some 0) ∧
    (NodeRecordBatch.ofNodes [{ id := 5 }]).position 0 = .ok (some 0) ∧
    (EdgeRecordBatch.ofEdges [{ source_id := 1, target_id := 2, weight := some 3 }]).weight 0 =
      .ok (some 3) :=
  c2_absent_weight_reads_as_zero [{ id := 5 }]
    [{ source_id := 1, target_id := 2, weight := some 3 }] 0 0 (by decide) (by decide)

/-! ### C4 -/

/-- C4 (counterexample): a node row with absent weight and position does not
read back "exactly": the row reconstructed by the `node` accessor carries
`Some(0.0)` in both fields, and similarly an edge row with absent weight
reads back with `Some(0.0)`. -/
theorem c4_counterexample :
    (NodeRecordBatch.ofNodes [{ id := 3 }]).node 0 =
      .ok { id := 3, weight := some 0, position := some 0 } ∧
    (NodeRecordBatch.ofNodes [{ id := 3 }]).node 0 ≠ .ok { id := 3 } ∧
    (EdgeRecordBatch.ofEdges [{ source_id := 4, target_id := 5 }]).edge 0 =
      .ok { source_id := 4, target_id := 5, weight := some 0 } ∧
    (EdgeRecordBatch.ofEdges [{ source_id := 4, target_id := 5 }]).edge 0 ≠
      .ok { source_id := 4, target_id := 5 } := by
  decide

/-- C4 (amended): converting a row list to a table and reading every row
back at its original index reproduces the ids exactly and reproduces each
weight/position as `Some(original.unwrap_or(0.0))`: a present value
round-trips exactly, an absent one comes back as present-with-`0.0` (both
through the scalar accessors and through whole-row reconstruction). -/
theorem c4_round_trip (nodes : List Node) (edges : List Edge)
    (i j : Nat) (hi : i < nodes.length) (hj : j < edges.length) :
    (NodeRecordBatch.ofNodes nodes).node_id i = .ok (nodes.get ⟨i, hi⟩).id ∧
    (NodeRecordBatch.ofNodes nodes).node i =
      .ok { id := (nodes.get ⟨i, hi⟩).id,
            weight := some ((nodes.get ⟨i, hi⟩).weight.getD 0),
            position := some ((nodes.get ⟨i, hi⟩).position.getD 0) } ∧
    (EdgeRecordBatch.ofEdges edges).source_id j = .ok (edges.get ⟨j, hj⟩).source_id ∧
    (EdgeRecordBatch.ofEdges edges).target_id j = .ok (edges.get ⟨j, hj⟩).target_id ∧
    (EdgeRecordBatch.ofEdges edges).edge j =
      .ok { source_id := (edges.get ⟨j, hj⟩).source_id,
            target_id := (edges.get ⟨j, hj⟩).target_id,
            weight := some ((edges.get ⟨j, hj⟩).weight.getD 0) } :=
  ⟨ofNodes_node_id nodes i hi, ofNodes_node nodes i hi, ofEdges_source_id edges j hj,
    ofEdges_target_id edges j hj, ofEdges_edge edges j hj⟩

/-- C4 witness: the round-trip statement at one concrete table with one
present and one absent optional value. -/
theorem c4_witness :
    (NodeRecordBatch.ofNodes [{ id := 9, position := some 2, weight := none }]).node_id 0 =
      .ok 9 ∧
    (NodeRecordBatch.ofNodes [{ id := 9, position := some 2, weight := none }]).node 0 =
      .ok { id := 9, weight := some 0, position := some 2 } ∧
    (EdgeRecordBatch.ofEdges [{ source_id := 1, target_id := 2, weight := some 7 }]).source_id 0 =
      .ok 1 ∧
    (EdgeRecordBatch.ofEdges [{ source_id := 1, target_id := 2, weight := some 7 }]).target_id 0 =
      .ok 2 ∧
    (EdgeRecordBatch.ofEdges [{ source_id := 1, target_id := 2, weight := some 7 }]).edge 0 =
      .ok { source_id := 1, target_id := 2, weight := some 7 } :=
  c4_round_trip [{ id := 9, position := some 2, weight := none }]
    [{ source_id := 1, target_id := 2, weight := some 7 }] 0 0 (by decide) (by decide)

/-! ### C3 -/

/-- C3 (confirmed): `build()` fails with `EmptyGraph` exactly when the
builder was invoked without any edges being supplied (the edge setter was
never called, so the `edges` field is still `None`); with an edge list
supplied — even an empty one — `build()` succeeds and in particular never
produces `EmptyGraph`. -/
theorem c3_empty_graph_iff (b : GraphBuilder) :
    (∃ s, b.build = .error (.EmptyGraph s)) ↔ b.edges = none := by
  obtain ⟨nopt, eopt⟩ := b
  cases eopt with
  | none => exact iff_of_true ⟨"no edges", rfl⟩ rfl
  | some es => simp [build_some]

/-! ### C5 -/

/-- C5 (counterexample): a graph with zero nodes and zero edges is accepted
by `from_arrow_record_batches` and `is_complete()` returns `true` on it
(release-mode wrapping evaluates the formula to an expected edge count of
`0`, which matches, and the only explicit exclusion is `num_nodes == 1`),
not `false` as the claim states. -/
theorem c5_counterexample :
    Graph.from_arrow_record_batches zeroGraph.node_record_batch zeroGraph.edge_record_batch =
      .ok zeroGraph ∧
    zeroGraph.num_nodes = 0 ∧ zeroGraph.num_edges = 0 ∧ zeroGraph.is_complete = true := by
  decide

/-- C5 (amended): for every graph with at least one node (and no `usize`
overflow in the product), `is_complete()` returns true iff
`num_edges = num_nodes * (num_nodes - 1) / 2` and `num_nodes > 1`; in
particular a single-node graph is never complete.  For a zero-node graph
the formula still evaluates (to an expected count of `0`, under
release-mode wrapping of `0 - 1`), but the overall result is `true` when
`num_edges = 0`, not `false` (see the counterexample). -/
theorem c5_is_complete_iff (g : Graph) (h1 : 1 ≤ g.num_nodes)
    (hov : g.num_nodes * (g.num_nodes - 1) < 2 ^ 64) :
    g.is_complete = true ↔
      (g.num_edges = g.num_nodes * (g.num_nodes - 1) / 2 ∧ 1 < g.num_nodes) := by
  have h2 : g.num_nodes - 1 < 2 ^ 64 :=
    lt_of_le_of_lt (by simpa using Nat.mul_le_mul_right (g.num_nodes - 1) h1) hov
  have hsub : usizeSub1 g.num_nodes = g.num_nodes - 1 := by
    unfold usizeSub1
    omega
  simp only [Graph.is_complete]
  rw [hsub, Nat.mod_eq_of_lt hov]
  set P := g.num_nodes * (g.num_nodes - 1) with hP
  split
  next hne => simp only [Bool.false_eq_true, false_iff]; omega
  next hne =>
    split
    next h1' => simp only [Bool.false_eq_true, false_iff]; omega
    next h1' => simp only [true_iff]; omega

/-- C5 witness: the amended statement decides completeness of the two-node
one-edge graph. -/
theorem c5_witness : twoGraph.is_complete = true :=
  (c5_is_complete_iff twoGraph (by decide) (by decide)).mpr (by decide)

/-! ### C8 -/

theorem except_bind_error {ε α β : Type} (e : ε) (f : α → Except ε β) :
    (Except.error e >>= f) = Except.error e := rfl

theorem except_bind_ok {ε α β : Type} (a : α) (f : α → Except ε β) :
    (Except.ok a >>= f) = f a := rfl

theorem node_id_IOB_iff (nb : NodeRecordBatch) (idx : Nat) :
    nb.node_id idx = .error .IndexOutOfBounds ↔ nb.num_nodes ≤ idx := by
  rw [NodeRecordBatch.node_id]
  split
  next h => simpa using h
  next h =>
    refine iff_of_false ?_ (by omega)
    split
    next => simp
    next col =>
      split
      next => simp
      next vs => simp

theorem nrb_weight_IOB_iff (nb : NodeRecordBatch) (idx : Nat) :
    nb.weight idx = .error .IndexOutOfBounds ↔ nb.num_nodes ≤ idx := by
  rw [NodeRecordBatch.weight]
  split
  next h => simpa using h
  next h =>
    refine iff_of_false ?_ (by omega)
    split
    next => simp
    next col =>
      split
      next => simp
      next vs => simp

theorem nrb_position_IOB_iff (nb : NodeRecordBatch) (idx : Nat) :
    nb.position idx = .error .IndexOutOfBounds ↔ nb.num_nodes ≤ idx := by
  rw [NodeRecordBatch.position]
  split
  next h => simpa using h
  next h =>
    refine iff_of_false ?_ (by omega)
    split
    next => simp
    next col =>
      split
      next => simp
      next vs => simp

theorem nrb_node_IOB_iff (nb : NodeRecordBatch) (idx : Nat) :
    nb.node idx = .error .IndexOutOfBounds ↔ nb.num_nodes ≤ idx := by
  rw [NodeRecordBatch.node]
  split
  next h => simpa using h
  next h =>
    refine iff_of_false ?_ (by omega)
    intro hcontra
    have hlt : ¬ nb.num_nodes ≤ idx := by omega
    cases hni : nb.node_id idx with
    | error e =>
      rw [hni, except_bind_error] at hcontra
      exact hlt ((node_id_IOB_iff nb idx).mp (by rw [hni, Except.error.inj hcontra]))
    | ok v =>
      rw [hni, except_bind_ok] at hcontra
      cases hw : nb.weight idx with
      | error e =>
        rw [hw, except_bind_error] at hcontra
        exact hlt ((nrb_weight_IOB_iff nb idx).mp (by rw [hw, Except.error.inj hcontra]))
      | ok w =>
        rw [hw, except_bind_ok] at hcontra
        cases hp : nb.position idx with
        | error e =>
          rw [hp, except_bind_error] at hcontra
          exact hlt ((nrb_position_IOB_iff nb idx).mp (by rw [hp, Except.error.inj hcontra]))
        | ok p =>
          rw [hp, except_bind_ok] at hcontra
          exact Except.noConfusion hcontra

theorem source_id_IOB_iff (eb : EdgeRecordBatch) (idx : Nat) :
    eb.source_id idx = .error .IndexOutOfBounds ↔ eb.num_edges ≤ idx := by
  rw [EdgeRecordBatch.source_id]
  split
  next h => simpa using h
  next h =>
    refine iff_of_false ?_ (by omega)
    split
    next => simp
    next col =>
      split
      next => simp
      next vs => simp

theorem target_id_IOB_iff (eb : EdgeRecordBatch) (idx : Nat) :
    eb.target_id idx = .error .IndexOutOfBounds ↔ eb.num_edges ≤ idx := by
  rw [EdgeRecordBatch.target_id]
  split
  next h => simpa using h
  next h =>
    refine iff_of_false ?_ (by omega)
    split
    next => simp
    next col =>
      split
      next => simp
      next vs => simp

theorem erb_weight_IOB_iff (eb : EdgeRecordBatch) (idx : Nat) :
    eb.weight idx = .error .IndexOutOfBounds ↔ eb.num_edges ≤ idx := by
  rw [EdgeRecordBatch.weight]
  split
  next h => simpa using h
  next h =>
    refine iff_of_false ?_ (by omega)
    split
    next => simp
    next col =>
      split
      next => simp
      next vs => simp

theorem erb_edge_IOB_iff (eb : EdgeRecordBatch) (idx : Nat) :
    eb.edge idx = .error .IndexOutOfBounds ↔ eb.num_edges ≤ idx := by
  rw [EdgeRecordBatch.edge]
  split
  next h => simpa using h
  next h =>
    refine iff_of_false ?_ (by omega)
    intro hcontra
    have hlt : ¬ eb.num_edges ≤ idx := by omega
    cases hs : eb.source_id idx with
    | error e =>
      rw [hs, except_bind_error] at hcontra
      exact hlt ((source_id_IOB_iff eb idx).mp (by rw [hs, Except.error.inj hcontra]))
    | ok v =>
      rw [hs, except_bind_ok] at hcontra
      cases ht : eb.target_id idx with
      | error e =>
        rw [ht, except_bind_error] at hcontra
        exact hlt ((target_id_IOB_iff eb idx).mp (by rw [ht, Except.error.inj hcontra]))
      | ok t =>
        rw [ht, except_bind_ok] at hcontra
        cases hw : eb.weight idx with
        | error e =>
          rw [hw, except_bind_error] at hcontra
          exact hlt ((erb_weight_IOB_iff eb idx).mp (by rw [hw, Except.error.inj hcontra]))
        | ok w =>
          rw [hw, except_bind_ok] at hcontra
          exact Except.noConfusion hcontra

/-- C8 (confirmed): every row-indexed accessor of the node table (`node_id`,
`weight`, `position`, `node`) and of the edge table (`source_id`,
`target_id`, `weight`, `edge`) returns the `IndexOutOfBounds` error exactly
when `idx ≥ row count`; for `idx < row count` it never returns
`IndexOutOfBounds` (other errors — missing column, wrong column type —
remain possible on a malformed table, but not that one). -/
theorem c8_index_out_of_bounds (nb : NodeRecordBatch) (eb : EdgeRecordBatch) (idx : Nat) :
    (nb.node_id idx = .error .IndexOutOfBounds ↔ nb.num_nodes ≤ idx) ∧
    (nb.weight idx = .error .IndexOutOfBounds ↔ nb.num_nodes ≤ idx) ∧
    (nb.position idx = .error .IndexOutOfBounds ↔ nb.num_nodes ≤ idx) ∧
    (nb.node idx = .error .IndexOutOfBounds ↔ nb.num_nodes ≤ idx) ∧
    (eb.source_id idx = .error .IndexOutOfBounds ↔ eb.num_edges ≤ idx) ∧
    (eb.target_id idx = .error .IndexOutOfBounds ↔ eb.num_edges ≤ idx) ∧
    (eb.weight idx = .error .IndexOutOfBounds ↔ eb.num_edges ≤ idx) ∧
    (eb.edge idx = .error .IndexOutOfBounds ↔ eb.num_edges ≤ idx) :=
  ⟨node_id_IOB_iff nb idx, nrb_weight_IOB_iff nb idx, nrb_position_IOB_iff nb idx,
    nrb_node_IOB_iff nb idx, source_id_IOB_iff eb idx, target_id_IOB_iff eb idx,
    erb_weight_IOB_iff eb idx, erb_edge_IOB_iff eb idx⟩

/-! ### C7 -/

theorem sorted_head_le {s : List Nat} (hs : List.Sorted (· ≤ ·) s) {x : Nat}
    (hx : x ∈ s) (hne : s ≠ []) : s.head hne ≤ x := by
  cases s with
  | nil => cases hx
  | cons a t =>
    rcases List.mem_cons.mp hx with rfl | hx'
    · exact le_refl _
    · exact (List.sorted_cons.mp hs).1 x hx'

theorem sorted_le_getLast {s : List Nat} (hs : List.Sorted (· ≤ ·) s) {x : Nat}
    (hx : x ∈ s) (hne : s ≠ []) : x ≤ s.getLast hne := by
  induction s with
  | nil => cases hx
  | cons a t ih =>
    rcases List.mem_cons.mp hx with rfl | hx'
    · cases t with
      | nil => simp [List.getLast]
      | cons b u =>
        rw [List.getLast_cons (List.cons_ne_nil b u)]
        exact (List.sorted_cons.mp hs).1 _ (List.getLast_mem _)
    · have ht : t ≠ [] := List.ne_nil_of_mem hx'
      rw [List.getLast_cons ht]
      exact ih (List.sorted_cons.mp hs).2 hx' ht

/-- C7 (confirmed): `is_connected()` is false on every zero-node graph; on a
graph with at least one node it returns exactly whether breadth-first
search finds a path from the numerically smallest id in the node table to
the numerically largest one (`lo`/`hi` below are members of the node-id
list that bound every entry of it). -/
theorem c7_is_connected (g : Graph) :
    (g.num_nodes = 0 → g.is_connected = false) ∧
    (0 < g.num_nodes →
      ∃ lo hi : NodeId,
        lo ∈ (List.range g.num_nodes).map g.node_idD ∧
        hi ∈ (List.range g.num_nodes).map g.node_idD ∧
        (∀ x ∈ (List.range g.num_nodes).map g.node_idD, lo ≤ x ∧ x ≤ hi) ∧
        g.is_connected = (breath_first_search g lo hi).isSome) := by
  constructor
  · intro h
    simp [Graph.is_connected, h]
  · intro h
    have hperm : List.Perm (((List.range g.num_nodes).map g.node_idD).insertionSort (· ≤ ·))
        ((List.range g.num_nodes).map g.node_idD) := List.perm_insertionSort _ _
    have hsort : List.Sorted (· ≤ ·)
        (((List.range g.num_nodes).map g.node_idD).insertionSort (· ≤ ·)) :=
      List.sorted_insertionSort _ _
    have hne : ((List.range g.num_nodes).map g.node_idD).insertionSort (· ≤ ·) ≠ [] := by
      intro hnil
      have hlen := hperm.length_eq
      rw [hnil] at hlen
      simp at hlen
      omega
    refine ⟨_, _, hperm.mem_iff.mp (List.head_mem hne),
      hperm.mem_iff.mp (List.getLast_mem hne), ?_, ?_⟩
    · intro x hx
      have hxs := hperm.mem_iff.mpr hx
      exact ⟨sorted_head_le hsort hxs hne, sorted_le_getLast hsort hxs hne⟩
    · rw [Graph.is_connected]
      simp only [if_neg (by omega : ¬ g.num_nodes = 0)]
      rw [List.head?_eq_head hne, List.getLast?_eq_getLast _ hne]
      rfl

/-! ### C9: termination of the four search loops -/

theorem bfsAux_nil (g : Graph) (endId : NodeId) (fuel : Nat) (V : Finset NodeId) :
    bfsAux g endId (fuel + 1) [] V = some none := rfl

theorem bfsAux_cons (g : Graph) (endId : NodeId) (fuel : Nat) (c : NodeId)
    (path : List NodeId) (rest : List (NodeId × List NodeId)) (V : Finset NodeId) :
    bfsAux g endId (fuel + 1) ((c, path) :: rest) V =
      if c = endId then some (some path)
      else if c ∈ V then bfsAux g endId fuel rest V
      else bfsAux g endId fuel
        (rest ++ (g.scanSuccessors c).map (fun t => (t, path ++ [t]))) (insert c V) := rfl

theorem dfsAux_nil (g : Graph) (endId : NodeId) (fuel : Nat) (V : Finset NodeId) :
    dfsAux g endId (fuel + 1) [] V = some none := rfl

theorem dfsAux_cons (g : Graph) (endId : NodeId) (fuel : Nat) (c : NodeId)
    (path : List NodeId) (rest : List (NodeId × List NodeId)) (V : Finset NodeId) :
    dfsAux g endId (fuel + 1) ((c, path) :: rest) V =
      if c = endId then some (some path)
      else if c ∈ V then dfsAux g endId fuel rest V
      else dfsAux g endId fuel
        ((((g.scanSuccessors c).filter (fun t => t ∉ insert c V)).map
            (fun t => (t, path ++ [t]))).reverse ++ rest) (insert c V) := rfl

theorem scanSuccessors_length (g : Graph) (u : NodeId) :
    (g.scanSuccessors u).length ≤ g.num_edges := by
  simp only [Graph.scanSuccessors, List.length_map]
  exact le_trans (List.length_filter_le _ _) (by simp)

theorem scanSuccessors_mem_targets (g : Graph) (u : NodeId) :
    ∀ t ∈ g.scanSuccessors u, t ∈ (List.range g.num_edges).map g.target_idD := by
  intro t ht
  rcases List.mem_map.mp ht with ⟨i, hi, rfl⟩
  exact List.mem_map.mpr ⟨i, List.mem_of_mem_filter hi, rfl⟩

theorem bfsMeasure_cons (g : Graph) (s c : NodeId) (path : List NodeId)
    (rest : List (NodeId × List NodeId)) (V : Finset NodeId) :
    bfsMeasure g s ((c, path) :: rest) V = bfsMeasure g s rest V + 1 := by
  unfold bfsMeasure
  rw [List.length_cons]
  ring

theorem bfsMeasure_expand (g : Graph) (s c : NodeId) (path : List NodeId)
    (rest Q' : List (NodeId × List NodeId)) (V : Finset NodeId)
    (hc : c ∈ g.frontierCand s) (hcv : c ∉ V)
    (hlen : Q'.length ≤ rest.length + g.num_edges) :
    bfsMeasure g s Q' (insert c V) < bfsMeasure g s ((c, path) :: rest) V := by
  unfold bfsMeasure
  have hmemd : c ∈ g.frontierCand s \ V := Finset.mem_sdiff.mpr ⟨hc, hcv⟩
  have hK : 1 ≤ (g.frontierCand s \ V).card := Finset.card_pos.mpr ⟨c, hmemd⟩
  have hcard : (g.frontierCand s \ insert c V).card = (g.frontierCand s \ V).card - 1 := by
    rw [Finset.sdiff_insert, Finset.card_erase_of_mem hmemd]
  rw [hcard, List.length_cons, Nat.sub_one_mul]
  have hge : g.num_edges + 1 ≤ (g.frontierCand s \ V).card * (g.num_edges + 1) :=
    Nat.le_mul_of_pos_left _ hK
  generalize (g.frontierCand s \ V).card * (g.num_edges + 1) = A at hge ⊢
  omega

theorem bfsAux_ne_none (g : Graph) (s endId : NodeId) :
    ∀ (fuel : Nat) (Q : List (NodeId × List NodeId)) (V : Finset NodeId),
      (∀ e ∈ Q, e.1 ∈ g.frontierCand s) → bfsMeasure g s Q V < fuel →
      bfsAux g endId fuel Q V ≠ none := by
  intro fuel
  induction fuel with
  | zero => exact fun Q V _ hm => absurd hm (Nat.not_lt_zero _)
  | succ fuel ih =>
    intro Q V hQ hm
    match Q with
    | [] => simp [bfsAux_nil]
    | (c, path) :: rest =>
      rw [bfsAux_cons]
      by_cases hend : c = endId
      · simp [hend]
      · rw [if_neg hend]
        by_cases hv : c ∈ V
        · rw [if_pos hv]
          refine ih rest V (fun e he => hQ e (List.mem_cons_of_mem _ he)) ?_
          have h1 := bfsMeasure_cons g s c path rest V
          omega
        · rw [if_neg hv]
          refine ih _ _ ?_ ?_
          · intro e he
            rcases List.mem_append.mp he with h | h
            · exact hQ e (List.mem_cons_of_mem _ h)
            · rcases List.mem_map.mp h with ⟨t, ht, rfl⟩
              exact Finset.mem_insert_of_mem
                (List.mem_toFinset.mpr (scanSuccessors_mem_targets g c t ht))
          · have hexp := bfsMeasure_expand g s c path rest
              (rest ++ (g.scanSuccessors c).map (fun t => (t, path ++ [t]))) V
              (hQ _ (List.mem_cons_self _ _)) hv
              (by
                rw [List.length_append, List.length_map]
                exact Nat.add_le_add_left (scanSuccessors_length g c) _)
            omega

theorem dfsAux_ne_none (g : Graph) (s endId : NodeId) :
    ∀ (fuel : Nat) (Q : List (NodeId × List NodeId)) (V : Finset NodeId),
      (∀ e ∈ Q, e.1 ∈ g.frontierCand s) → bfsMeasure g s Q V < fuel →
      dfsAux g endId fuel Q V ≠ none := by
  intro fuel
  induction fuel with
  | zero => exact fun Q V _ hm => absurd hm (Nat.not_lt_zero _)
  | succ fuel ih =>
    intro Q V hQ hm
    match Q with
    | [] => simp [dfsAux_nil]
    | (c, path) :: rest =>
      rw [dfsAux_cons]
      by_cases hend : c = endId
      · simp [hend]
      · rw [if_neg hend]
        by_cases hv : c ∈ V
        · rw [if_pos hv]
          refine ih rest V (fun e he => hQ e (List.mem_cons_of_mem _ he)) ?_
          have h1 := bfsMeasure_cons g s c path rest V
          omega
        · rw [if_neg hv]
          refine ih _ _ ?_ ?_
          · intro e he
            rcases List.mem_append.mp he with h | h
            · rcases List.mem_map.mp (List.mem_reverse.mp h) with ⟨t, ht, rfl⟩
              exact Finset.mem_insert_of_mem
                (List.mem_toFinset.mpr
                  (scanSuccessors_mem_targets g c t (List.mem_of_mem_filter ht)))
            · exact hQ e (List.mem_cons_of_mem _ h)
          · have hexp := bfsMeasure_expand g s c path rest
              ((((g.scanSuccessors c).filter (fun t => t ∉ insert c V)).map
                  (fun t => (t, path ++ [t]))).reverse ++ rest) V
              (hQ _ (List.mem_cons_self _ _)) hv
              (by
                rw [List.length_append, List.length_reverse, List.length_map]
                have hfl : (((g.scanSuccessors c).filter
                    (fun t => t ∉ insert c V)).length : Nat) ≤ g.num_edges :=
                  le_trans (List.length_filter_le _ _) (scanSuccessors_length g c)
                omega)
            omega

theorem except_pure_eq {ε α : Type} (a : α) : (pure a : Except ε α) = .ok a := rfl

theorem edge_ok_target (eb : EdgeRecordBatch) (i : Nat) (e : Edge)
    (h : eb.edge i = .ok e) : eb.target_id i = .ok e.target_id := by
  rw [EdgeRecordBatch.edge] at h
  split at h
  next => exact absurd h (by simp)
  next hlt =>
    cases hs : eb.source_id i with
    | error err => rw [hs, except_bind_error] at h; exact absurd h (by simp)
    | ok sv =>
      rw [hs, except_bind_ok] at h
      cases ht : eb.target_id i with
      | error err => rw [ht, except_bind_error] at h; exact absurd h (by simp)
      | ok tv =>
        rw [ht, except_bind_ok] at h
        cases hw : eb.weight i with
        | error err => rw [hw, except_bind_error] at h; exact absurd h (by simp)
        | ok wv =>
          rw [hw, except_bind_ok, except_pure_eq] at h
          cases Except.ok.inj h
          rfl

theorem nwwAux_mem_targets (eb : EdgeRecordBatch) (u : NodeId) :
    ∀ (l : List Nat) (res : List (NodeId × Weight)), eb.neighborsWWAux u l = .ok res →
      ∀ nb ∈ res, ∃ i ∈ l, eb.target_id i = .ok nb.1 := by
  intro l
  induction l with
  | nil =>
    intro res h nb hnb
    rw [EdgeRecordBatch.neighborsWWAux] at h
    cases Except.ok.inj h
    cases hnb
  | cons i rest ih =>
    intro res h nb hnb
    rw [EdgeRecordBatch.neighborsWWAux] at h
    cases he : eb.edge i with
    | error err => rw [he, except_bind_error] at h; exact absurd h (by simp)
    | ok e =>
      rw [he, except_bind_ok] at h
      cases hrec : eb.neighborsWWAux u rest with
      | error err => rw [hrec, except_bind_error] at h; exact absurd h (by simp)
      | ok tail =>
        rw [hrec, except_bind_ok] at h
        by_cases hsrc : e.source_id = u
        · rw [if_pos hsrc, except_pure_eq] at h
          rw [← Except.ok.inj h] at hnb
          rcases List.mem_cons.mp hnb with rfl | htail
          · exact ⟨i, List.mem_cons_self _ _, edge_ok_target eb i e he⟩
          · rcases ih tail hrec nb htail with ⟨i', hi', hti'⟩
            exact ⟨i', List.mem_cons_of_mem _ hi', hti'⟩
        · rw [if_neg hsrc, except_pure_eq] at h
          rw [← Except.ok.inj h] at hnb
          rcases ih tail hrec nb hnb with ⟨i', hi', hti'⟩
          exact ⟨i', List.mem_cons_of_mem _ hi', hti'⟩

theorem neighborsWWD_mem_targets (g : Graph) (u : NodeId) :
    ∀ nb ∈ g.neighborsWWD u, nb.1 ∈ (List.range g.num_edges).map g.target_idD := by
  intro nb hnb
  rw [Graph.neighborsWWD] at hnb
  cases h : g.neighbors_with_weights u with
  | error err => rw [h] at hnb; cases hnb
  | ok res =>
    rw [h] at hnb
    simp only [Except.toOption, Option.getD_some] at hnb
    rcases nwwAux_mem_targets g.edge_record_batch u (List.range g.num_edges) res h nb hnb with
      ⟨i, hi, hti⟩
    refine List.mem_map.mpr ⟨i, hi, ?_⟩
    rw [Graph.target_idD, Graph.target_id, hti]
    rfl

theorem lookup_insert_self (k c : Nat) (m : List (Nat × Nat)) :
    ((k, c) :: m).lookup k = some c := by
  simp [List.lookup]

theorem lookup_insert_ne (k c v : Nat) (m : List (Nat × Nat)) (h : v ≠ k) :
    ((k, c) :: m).lookup v = m.lookup v := by
  have hb : (v == k) = false := beq_eq_false_iff_ne.mpr h
  simp [List.lookup, hb]

theorem u32add_lt (a b : Nat) : u32add a b < 2 ^ 32 :=
  Nat.mod_lt _ (by norm_num)

theorem mem_of_lookup_eq_some {k v : Nat} :
    ∀ {m : List (Nat × Nat)}, m.lookup k = some v → (k, v) ∈ m := by
  intro m
  induction m with
  | nil => intro h; simp [List.lookup] at h
  | cons kv rest ih =>
    obtain ⟨k', v'⟩ := kv
    intro h
    by_cases hk : k = k'
    · subst hk
      rw [lookup_insert_self] at h
      rw [← Option.some.inj h]
      exact List.mem_cons_self _ _
    · rw [lookup_insert_ne _ _ _ _ hk] at h
      exact List.mem_cons_of_mem _ (ih h)

theorem distPhi_insert_lt (g : Graph) (s : NodeId) (dist : List (NodeId × Nat))
    (k c : Nat) (hmem : k ∈ g.frontierCand s) (hc : c < (dist.lookup k).getD (2 ^ 32)) :
    distPhi g s ((k, c) :: dist) < distPhi g s dist := by
  unfold distPhi
  refine Finset.sum_lt_sum ?_ ⟨k, hmem, ?_⟩
  · intro v hv
    by_cases hveq : v = k
    · subst hveq
      rw [lookup_insert_self]
      exact le_of_lt (by simpa using hc)
    · rw [lookup_insert_ne _ _ _ _ hveq]
  · rw [lookup_insert_self]
    simpa using hc

theorem dijkstraRelax_measure (g : Graph) (s pos : NodeId) (cost : Nat)
    (st : List (NodeId × Nat) × List (NodeId × NodeId) × List (Nat × NodeId))
    (nb : NodeId × Weight) (hmem : nb.1 ∈ g.frontierCand s) :
    distPhi g s (dijkstraRelax pos cost st nb).1 +
        (dijkstraRelax pos cost st nb).2.2.length ≤
      distPhi g s st.1 + st.2.2.length := by
  obtain ⟨dist, prev, heap⟩ := st
  simp only [dijkstraRelax]
  cases hlook : dist.lookup nb.1 with
  | none =>
    rw [if_pos (Or.inl (by simp))]
    have hlt : distPhi g s ((nb.1, u32add cost (weightToU32 nb.2)) :: dist) <
        distPhi g s dist :=
      distPhi_insert_lt g s dist nb.1 _ hmem (by rw [hlook]; exact u32add_lt _ _)
    simp only [List.length_cons]
    omega
  | some d =>
    by_cases himp : u32add cost (weightToU32 nb.2) < d
    · rw [if_pos (Or.inr (by simpa using himp))]
      have hlt : distPhi g s ((nb.1, u32add cost (weightToU32 nb.2)) :: dist) <
          distPhi g s dist :=
        distPhi_insert_lt g s dist nb.1 _ hmem (by rw [hlook]; simpa using himp)
      simp only [List.length_cons]
      omega
    · rw [if_neg (by simp [himp])]

theorem foldl_dijkstraRelax_measure (g : Graph) (s pos : NodeId) (cost : Nat) :
    ∀ (nbs : List (NodeId × Weight))
      (st : List (NodeId × Nat) × List (NodeId × NodeId) × List (Nat × NodeId)),
      (∀ nb ∈ nbs, nb.1 ∈ g.frontierCand s) →
      distPhi g s (nbs.foldl (dijkstraRelax pos cost) st).1 +
          (nbs.foldl (dijkstraRelax pos cost) st).2.2.length ≤
        distPhi g s st.1 + st.2.2.length := by
  intro nbs
  induction nbs with
  | nil => intro st _; exact le_refl _
  | cons nb nbs ih =>
    intro st hmem
    rw [List.foldl_cons]
    exact le_trans
      (ih _ (fun x hx => hmem x (List.mem_cons_of_mem _ hx)))
      (dijkstraRelax_measure g s pos cost st nb (hmem nb (List.mem_cons_self _ _)))

theorem aRelax_measure (g : Graph) (s pos : NodeId) (base : Nat)
    (st : List (NodeId × Nat) × List (NodeId × NodeId) × List (Nat × NodeId))
    (nb : NodeId × Weight) (hmem : nb.1 ∈ g.frontierCand s) :
    distPhi g s (aRelax pos base st nb).1 + (aRelax pos base st nb).2.2.length ≤
      distPhi g s st.1 + st.2.2.length := by
  obtain ⟨gScore, cameFrom, openSet⟩ := st
  simp only [aRelax]
  by_cases himp : u32add base (weightToU32 nb.2) < (gScore.lookup nb.1).getD (2 ^ 32 - 1)
  · rw [if_pos himp]
    have hlt : distPhi g s ((nb.1, u32add base (weightToU32 nb.2)) :: gScore) <
        distPhi g s gScore := by
      refine distPhi_insert_lt g s gScore nb.1 _ hmem ?_
      cases hlook : gScore.lookup nb.1 with
      | none => exact u32add_lt _ _
      | some d => rw [hlook] at himp; simpa using himp
    simp only [List.length_cons]
    omega
  · rw [if_neg himp]

theorem foldl_aRelax_measure (g : Graph) (s pos : NodeId) (base : Nat) :
    ∀ (nbs : List (NodeId × Weight))
      (st : List (NodeId × Nat) × List (NodeId × NodeId) × List (Nat × NodeId)),
      (∀ nb ∈ nbs, nb.1 ∈ g.frontierCand s) →
      distPhi g s (nbs.foldl (aRelax pos base) st).1 +
          (nbs.foldl (aRelax pos base) st).2.2.length ≤
        distPhi g s st.1 + st.2.2.length := by
  intro nbs
  induction nbs with
  | nil => intro st _; exact le_refl _
  | cons nb nbs ih =>
    intro st hmem
    rw [List.foldl_cons]
    exact le_trans
      (ih _ (fun x hx => hmem x (List.mem_cons_of_mem _ hx)))
      (aRelax_measure g s pos base st nb (hmem nb (List.mem_cons_self _ _)))

theorem heapPopMin_cons (x : Nat × NodeId) (xs : List (Nat × NodeId)) :
    heapPopMin (x :: xs) =
      match heapPopMin xs with
      | none => some (x, [])
      | some (m, rest) => if x.1 ≤ m.1 then some (x, xs) else some (m, x :: rest) := rfl

theorem heapPopMin_eq_none {l : List (Nat × NodeId)} :
    heapPopMin l = none ↔ l = [] := by
  cases l with
  | nil => simp [heapPopMin]
  | cons x xs =>
    rw [heapPopMin_cons]
    cases h : heapPopMin xs with
    | none => simp
    | some m =>
      obtain ⟨mm, r⟩ := m
      by_cases hle : x.1 ≤ mm.1 <;> simp [hle]

theorem heapPopMin_length :
    ∀ {l : List (Nat × NodeId)} {x : Nat × NodeId} {rest : List (Nat × NodeId)},
      heapPopMin l = some (x, rest) → l.length = rest.length + 1 := by
  intro l
  induction l with
  | nil => intro x rest h; simp [heapPopMin] at h
  | cons y ys ih =>
    intro x rest h
    cases hh : heapPopMin ys with
    | none =>
      have hnil : ys = [] := heapPopMin_eq_none.mp hh
      simp only [heapPopMin_cons, hh] at h
      simp only [Option.some.injEq, Prod.mk.injEq] at h
      subst hnil
      simp [← h.2]
    | some m =>
      obtain ⟨mm, r⟩ := m
      simp only [heapPopMin_cons, hh] at h
      by_cases hle : y.1 ≤ mm.1
      · rw [if_pos hle] at h
        simp only [Option.some.injEq, Prod.mk.injEq] at h
        simp [← h.2]
      · rw [if_neg hle] at h
        simp only [Option.some.injEq, Prod.mk.injEq] at h
        have := ih hh
        simp [← h.2]
        omega

theorem dijkstraAux_succ (g : Graph) (endId : NodeId) (fuel : Nat)
    (dist : List (NodeId × Nat)) (prev : List (NodeId × NodeId))
    (heap : List (Nat × NodeId)) :
    dijkstraAux g endId (fuel + 1) dist prev heap =
      match heapPopMin heap with
      | none => some none
      | some ((cost, position), heap') =>
        if position = endId then some (some prev)
        else if (dist.lookup position).getD 0 < cost then
          dijkstraAux g endId fuel dist prev heap'
        else
          let st := (g.neighborsWWD position).foldl (dijkstraRelax position cost)
            (dist, prev, heap')
          dijkstraAux g endId fuel st.1 st.2.1 st.2.2 := rfl

theorem aAux_succ (g : Graph) (endId : NodeId) (fuel : Nat)
    (gScore : List (NodeId × Nat)) (cameFrom : List (NodeId × NodeId))
    (openSet : List (Nat × NodeId)) :
    aAux g endId (fuel + 1) gScore cameFrom openSet =
      match heapPopMin openSet with
      | none => some none
      | some ((_, position), openSet') =>
        if position = endId then some (some cameFrom)
        else
          let st := (g.neighborsWWD position).foldl
            (aRelax position ((gScore.lookup position).getD 0)) (gScore, cameFrom, openSet')
          aAux g endId fuel st.1 st.2.1 st.2.2 := rfl

theorem dijkstraAux_ne_none (g : Graph) (s endId : NodeId) :
    ∀ (fuel : Nat) (dist : List (NodeId × Nat)) (prev : List (NodeId × NodeId))
      (heap : List (Nat × NodeId)),
      distPhi g s dist + heap.length < fuel →
      dijkstraAux g endId fuel dist prev heap ≠ none := by
  intro fuel
  induction fuel with
  | zero => exact fun dist prev heap hm => absurd hm (Nat.not_lt_zero _)
  | succ fuel ih =>
    intro dist prev heap hm
    cases hpop : heapPopMin heap with
    | none => simp [dijkstraAux_succ, hpop]
    | some popped =>
      obtain ⟨⟨cost, position⟩, heap'⟩ := popped
      simp only [dijkstraAux_succ, hpop]
      have hlen := heapPopMin_length hpop
      by_cases hend : position = endId
      · simp [hend]
      · rw [if_neg hend]
        by_cases hstale : (dist.lookup position).getD 0 < cost
        · rw [if_pos hstale]
          exact ih dist prev heap' (by omega)
        · rw [if_neg hstale]
          have hfold := foldl_dijkstraRelax_measure g s position cost
            (g.neighborsWWD position) (dist, prev, heap')
            (fun nb hnb => Finset.mem_insert_of_mem
              (List.mem_toFinset.mpr (neighborsWWD_mem_targets g position nb hnb)))
          dsimp only at hfold
          exact ih _ _ _ (by omega)

theorem aAux_ne_none (g : Graph) (s endId : NodeId) :
    ∀ (fuel : Nat) (gScore : List (NodeId × Nat)) (cameFrom : List (NodeId × NodeId))
      (openSet : List (Nat × NodeId)),
      distPhi g s gScore + openSet.length < fuel →
      aAux g endId fuel gScore cameFrom openSet ≠ none := by
  intro fuel
  induction fuel with
  | zero => exact fun gScore cameFrom openSet hm => absurd hm (Nat.not_lt_zero _)
  | succ fuel ih =>
    intro gScore cameFrom openSet hm
    cases hpop : heapPopMin openSet with
    | none => simp [aAux_succ, hpop]
    | some popped =>
      obtain ⟨⟨cost, position⟩, openSet'⟩ := popped
      simp only [aAux_succ, hpop]
      have hlen := heapPopMin_length hpop
      by_cases hend : position = endId
      · simp [hend]
      · rw [if_neg hend]
        have hfold := foldl_aRelax_measure g s position
          ((gScore.lookup position).getD 0) (g.neighborsWWD position)
          (gScore, cameFrom, openSet')
          (fun nb hnb => Finset.mem_insert_of_mem
            (List.mem_toFinset.mpr (neighborsWWD_mem_targets g position nb hnb)))
        dsimp only at hfold
        exact ih _ _ _ (by omega)

theorem frontierCand_card (g : Graph) (s : NodeId) :
    (g.frontierCand s).card ≤ g.num_edges + 1 := by
  refine le_trans (Finset.card_insert_le _ _) ?_
  have h := List.toFinset_card_le ((List.range g.num_edges).map g.target_idD)
  simp only [List.length_map, List.length_range] at h
  omega

theorem distPhi_le (g : Graph) (s : NodeId) (dist : List (NodeId × Nat))
    (hb : ∀ kv ∈ dist, kv.2 ≤ 2 ^ 32) :
    distPhi g s dist ≤ (g.frontierCand s).card * 2 ^ 32 := by
  unfold distPhi
  have hh : ∀ v ∈ g.frontierCand s, (dist.lookup v).getD (2 ^ 32) ≤ 2 ^ 32 := by
    intro v _
    cases hl : dist.lookup v with
    | none => simp
    | some d => simpa using hb (v, d) (mem_of_lookup_eq_some hl)
  simpa using Finset.sum_le_card_nsmul _ _ _ hh

/-- C9 (confirmed): all four search loops, run on their actual inputs with
the fuel the model's top-level functions use, complete for every graph and
every pair of ids — the fueled loops never reach their cut-off, i.e. each
loop returns by finding the destination or by exhausting its queue, stack
or priority heap after finitely many iterations (cycles and zero-weight
edges included; the Dijkstra/best-first potential argument relies only on
recorded `u32` distances strictly decreasing at each push). -/
theorem c9_search_loops_terminate (g : Graph) (s e : NodeId) :
    bfsAux g e (bfsFuel g) [(s, [s])] ∅ ≠ none ∧
    dfsAux g e (dfsFuel g) [(s, [s])] ∅ ≠ none ∧
    dijkstraAux g e (searchFuel g) [(s, 0)] [] [(0, s)] ≠ none ∧
    aAux g e (searchFuel g) [(s, 0)] [] [(0, s)] ≠ none := by
  have hcard := frontierCand_card g s
  have hQ : ∀ en ∈ [(s, ([s] : List NodeId))], en.1 ∈ g.frontierCand s := by
    intro en hen
    rcases List.mem_singleton.mp hen with rfl
    exact Finset.mem_insert_self _ _
  have hmb : bfsMeasure g s [(s, [s])] ∅ < bfsFuel g := by
    unfold bfsMeasure bfsFuel
    rw [Finset.sdiff_empty, List.length_singleton]
    have hmul : (g.frontierCand s).card * (g.num_edges + 1) ≤
        (g.num_edges + 1) * (g.num_edges + 1) :=
      Nat.mul_le_mul_right _ hcard
    omega
  have hphi : distPhi g s [(s, 0)] + 1 < searchFuel g := by
    have h1 : distPhi g s [(s, 0)] ≤ (g.frontierCand s).card * 2 ^ 32 :=
      distPhi_le g s [(s, 0)] (by intro kv hkv; rcases List.mem_singleton.mp hkv with rfl; omega)
    have h2 : (g.frontierCand s).card * 2 ^ 32 ≤ (g.num_edges + 1) * 2 ^ 32 :=
      Nat.mul_le_mul_right _ hcard
    unfold searchFuel
    omega
  exact ⟨bfsAux_ne_none g s e (bfsFuel g) _ _ hQ hmb,
    dfsAux_ne_none g s e (dfsFuel g) _ _ hQ hmb,
    dijkstraAux_ne_none g s e (searchFuel g) _ _ _ (by simpa using hphi),
    aAux_ne_none g s e (searchFuel g) _ _ _ (by simpa using hphi)⟩

/-! ### C1: the chain graphs -/

theorem chainEdges_length (k : Nat) : (chainEdges k).length = k := by
  simp [chainEdges]

theorem edgeAtD_eq_get (es : List Edge) (i : Nat) (h : i < es.length) :
    edgeAtD es i = es.get ⟨i, h⟩ := by
  unfold edgeAtD
  rw [List.getD_eq_getElem _ _ h]
  simp

theorem edgeAtD_chainEdges (k i : Nat) (h : i < k) :
    edgeAtD (chainEdges k) i = { source_id := 1 + i, target_id := 1 + i + 1 } := by
  unfold edgeAtD chainEdges
  rw [List.getD_eq_getElem _ _ (by simpa using h)]
  rw [List.getElem_map, List.getElem_range']
  simp

theorem graph_mk_num_edges (nb : NodeRecordBatch) (es : List Edge) :
    (Graph.mk nb (EdgeRecordBatch.ofEdges es)).num_edges = es.length :=
  ofEdges_num_edges es

theorem graph_mk_source_idD (nb : NodeRecordBatch) (es : List Edge) (idx : Nat)
    (h : idx < es.length) :
    (Graph.mk nb (EdgeRecordBatch.ofEdges es)).source_idD idx = (edgeAtD es idx).source_id := by
  rw [Graph.source_idD, Graph.source_id]
  show ((EdgeRecordBatch.ofEdges es).source_id idx).toOption.getD 0 = _
  rw [ofEdges_source_id es idx h, edgeAtD_eq_get es idx h]
  rfl

theorem graph_mk_target_idD (nb : NodeRecordBatch) (es : List Edge) (idx : Nat)
    (h : idx < es.length) :
    (Graph.mk nb (EdgeRecordBatch.ofEdges es)).target_idD idx = (edgeAtD es idx).target_id := by
  rw [Graph.target_idD, Graph.target_id]
  show ((EdgeRecordBatch.ofEdges es).target_id idx).toOption.getD 0 = _
  rw [ofEdges_target_id es idx h, edgeAtD_eq_get es idx h]
  rfl

theorem range_filter_eq_singleton (k u : Nat) (h1 : 1 ≤ u) (h2 : u ≤ k) :
    (List.range k).filter (fun idx => decide (1 + idx = u)) = [u - 1] := by
  induction k with
  | zero => omega
  | succ k ih =>
    rw [List.range_succ, List.filter_append]
    by_cases hu : u ≤ k
    · rw [ih hu]
      have : ¬ (1 + k = u) := by omega
      simp [this]
    · have hu' : u = k + 1 := by omega
      have hnil : (List.range k).filter (fun idx => decide (1 + idx = u)) = [] := by
        rw [List.filter_eq_nil_iff]
        intro a ha
        have := List.mem_range.mp ha
        simp only [decide_eq_true_eq]
        omega
      rw [hnil]
      have : (1 + k = u) := by omega
      simp [this]
      omega

theorem chain_scanSuccessors (nb : NodeRecordBatch) (k u : Nat) (h1 : 1 ≤ u) (h2 : u ≤ k) :
    (Graph.mk nb (EdgeRecordBatch.ofEdges (chainEdges k))).scanSuccessors u = [u + 1] := by
  unfold Graph.scanSuccessors
  rw [graph_mk_num_edges, chainEdges_length]
  have hcong : (List.range k).filter
      (fun idx => decide ((Graph.mk nb (EdgeRecordBatch.ofEdges (chainEdges k))).source_idD idx = u)) =
      (List.range k).filter (fun idx => decide (1 + idx = u)) := by
    refine List.filter_congr ?_
    intro x hx
    have hxk := List.mem_range.mp hx
    rw [graph_mk_source_idD nb (chainEdges k) x (by rw [chainEdges_length]; exact hxk),
      edgeAtD_chainEdges k x hxk]
  rw [hcong, range_filter_eq_singleton k u h1 h2]
  rw [List.map_singleton,
    graph_mk_target_idD nb (chainEdges k) (u - 1) (by rw [chainEdges_length]; omega),
    edgeAtD_chainEdges k (u - 1) (by omega)]
  have harith : 1 + (u - 1) + 1 = u + 1 := by omega
  simp [harith]

theorem chainDist_succ (i : Nat) : chainDist (i + 1) = (i + 1, 0) :: chainDist i := by
  unfold chainDist
  rw [List.range'_concat]
  simp [Nat.add_comm]

theorem chainPrev_succ (i : Nat) (h : 1 ≤ i) :
    chainPrev (i + 1) = (i + 1, i) :: chainPrev i := by
  unfold chainPrev
  have h1 : i + 1 - 1 = (i - 1) + 1 := by omega
  rw [h1, List.range'_concat]
  have h2 : 2 + 1 * (i - 1) = i + 1 := by omega
  rw [h2]
  simp

theorem chainDist_lookup (i m : Nat) :
    (chainDist i).lookup m = if 1 ≤ m ∧ m ≤ i then some 0 else none := by
  induction i with
  | zero =>
    rw [if_neg (by omega)]
    rfl
  | succ i ih =>
    rw [chainDist_succ]
    by_cases hm : m = i + 1
    · subst hm
      rw [lookup_insert_self, if_pos (by omega)]
    · rw [lookup_insert_ne _ _ _ _ hm, ih]
      by_cases hcase : 1 ≤ m ∧ m ≤ i
      · rw [if_pos hcase, if_pos (by omega)]
      · rw [if_neg hcase, if_neg (by omega)]

theorem chainPrev_lookup (i m : Nat) :
    (chainPrev i).lookup m = if 2 ≤ m ∧ m ≤ i then some (m - 1) else none := by
  induction i with
  | zero =>
    rw [if_neg (by omega)]
    rfl
  | succ i ih =>
    by_cases hi : 1 ≤ i
    · rw [chainPrev_succ i hi]
      by_cases hm : m = i + 1
      · subst hm
        rw [lookup_insert_self, if_pos (by omega)]
        exact congrArg some (by omega)
      · rw [lookup_insert_ne _ _ _ _ hm, ih]
        by_cases hcase : 2 ≤ m ∧ m ≤ i
        · rw [if_pos hcase, if_pos (by omega)]
        · rw [if_neg hcase, if_neg (by omega)]
    · have hi0 : i = 0 := by omega
      subst hi0
      rw [if_neg (by omega)]
      rfl

theorem nwwAux_ofEdges (es : List Edge) (u : NodeId) :
    ∀ (l : List Nat), (∀ i ∈ l, i < es.length) →
      (EdgeRecordBatch.ofEdges es).neighborsWWAux u l =
        .ok ((l.filter (fun i => decide ((edgeAtD es i).source_id = u))).map
          (fun i => ((edgeAtD es i).target_id, (edgeAtD es i).weight.getD 0))) := by
  intro l
  induction l with
  | nil => intro _; rfl
  | cons i rest ih =>
    intro hl
    have hi : i < es.length := hl i (List.mem_cons_self _ _)
    rw [EdgeRecordBatch.neighborsWWAux]
    rw [ofEdges_edge es i hi, except_bind_ok,
      ih (fun x hx => hl x (List.mem_cons_of_mem _ hx)), except_bind_ok,
      ← edgeAtD_eq_get es i hi]
    rw [List.filter_cons]
    by_cases hsrc : (edgeAtD es i).source_id = u
    · rw [if_pos hsrc]
      simp [hsrc, except_pure_eq]
    · rw [if_neg hsrc]
      simp [hsrc, except_pure_eq]

theorem graph_mk_neighborsWWD (nb : NodeRecordBatch) (es : List Edge) (u : NodeId) :
    (Graph.mk nb (EdgeRecordBatch.ofEdges es)).neighborsWWD u =
      ((List.range es.length).filter (fun i => decide ((edgeAtD es i).source_id = u))).map
        (fun i => ((edgeAtD es i).target_id, (edgeAtD es i).weight.getD 0)) := by
  rw [Graph.neighborsWWD, Graph.neighbors_with_weights]
  show ((EdgeRecordBatch.ofEdges es).neighbors_with_weights u).toOption.getD [] = _
  rw [EdgeRecordBatch.neighbors_with_weights, ofEdges_num_edges,
    nwwAux_ofEdges es u (List.range es.length) (fun i hi => List.mem_range.mp hi)]
  rfl

theorem chain_neighborsWWD (nb : NodeRecordBatch) (k u : Nat) (h1 : 1 ≤ u) (h2 : u ≤ k) :
    (Graph.mk nb (EdgeRecordBatch.ofEdges (chainEdges k))).neighborsWWD u = [(u + 1, 0)] := by
  rw [graph_mk_neighborsWWD, chainEdges_length]
  have hcong : (List.range k).filter
      (fun i => decide ((edgeAtD (chainEdges k) i).source_id = u)) =
      (List.range k).filter (fun i => decide (1 + i = u)) := by
    refine List.filter_congr ?_
    intro x hx
    rw [edgeAtD_chainEdges k x (List.mem_range.mp hx)]
  rw [hcong, range_filter_eq_singleton k u h1 h2]
  rw [List.map_singleton, edgeAtD_chainEdges k (u - 1) (by omega)]
  have harith : 1 + (u - 1) + 1 = u + 1 := by omega
  simp [harith]

theorem reconstructAux_succ (prev : List (NodeId × NodeId)) (fuel : Nat)
    (current : NodeId) (path : List NodeId) :
    reconstructAux prev (fuel + 1) current path =
      match prev.lookup current with
      | none => some path.reverse
      | some previous => reconstructAux prev fuel previous (path ++ [previous]) := rfl

theorem reconstruct_chain (j : Nat) :
    ∀ (m fuel : Nat) (acc : List NodeId), 1 ≤ m → m ≤ j → m ≤ fuel →
      reconstructAux (chainPrev j) fuel m acc =
        some ((acc ++ (List.range' 1 (m - 1)).reverse).reverse) := by
  intro m
  induction m with
  | zero => intro fuel acc h1 _ _; omega
  | succ m ih =>
    intro fuel acc h1 hmj hfuel
    obtain ⟨f, rfl⟩ : ∃ f, fuel = f + 1 := ⟨fuel - 1, by omega⟩
    by_cases hm : 1 ≤ m
    · have hlook : (chainPrev j).lookup (m + 1) = some m := by
        rw [chainPrev_lookup, if_pos (by omega)]
        exact congrArg some (by omega)
      simp only [reconstructAux_succ, hlook]
      rw [ih f (acc ++ [m]) hm (by omega) (by omega)]
      have hconcat : List.range' 1 m = List.range' 1 (m - 1) ++ [m] := by
        have h := @List.range'_concat 1 1 (m - 1)
        have e1 : (m - 1) + 1 = m := by omega
        have e2 : 1 + 1 * (m - 1) = m := by omega
        rw [e1, e2] at h
        exact h
      rw [show m + 1 - 1 = m from by omega, hconcat]
      simp [List.reverse_append, List.append_assoc]

    · have hm0 : m = 0 := by omega
      subst hm0
      have hlook : (chainPrev j).lookup 1 = none := by
        rw [chainPrev_lookup, if_neg (by omega)]
      simp only [reconstructAux_succ, hlook]
      simp

theorem u32add_zero_weight : u32add 0 (weightToU32 0) = 0 := by
  decide

theorem bfs_chain (nb : NodeRecordBatch) (k j : Nat) (hjk : j ≤ k) :
    ∀ (d i fuel : Nat) (V : Finset NodeId), i + d = j → 1 ≤ i → d < fuel →
      (∀ x ∈ V, x < i) →
      bfsAux (Graph.mk nb (EdgeRecordBatch.ofEdges (chainEdges k))) j fuel
          [(i, List.range' 1 i)] V = some (some (List.range' 1 j)) := by
  intro d
  induction d with
  | zero =>
    intro i fuel V hij hi1 hfuel hV
    obtain ⟨f, rfl⟩ : ∃ f, fuel = f + 1 := ⟨fuel - 1, by omega⟩
    rw [bfsAux_cons, if_pos (by omega : i = j), show i = j from by omega]
  | succ d ih =>
    intro i fuel V hij hi1 hfuel hV
    obtain ⟨f, rfl⟩ : ∃ f, fuel = f + 1 := ⟨fuel - 1, by omega⟩
    have hiv : i ∉ V := fun hmem => absurd (hV i hmem) (lt_irrefl i)
    rw [bfsAux_cons, if_neg (by omega : ¬ i = j), if_neg hiv,
      chain_scanSuccessors nb k i hi1 (by omega)]
    simp only [List.map_cons, List.map_nil, List.nil_append]
    have hpath : List.range' 1 i ++ [i + 1] = List.range' 1 (i + 1) := by
      rw [List.range'_concat]
      have : 1 + 1 * i = i + 1 := by omega
      rw [this]
    rw [hpath]
    exact ih (i + 1) f (insert i V) (by omega) (by omega) (by omega)
      (fun x hx => by
        rcases Finset.mem_insert.mp hx with rfl | hxv
        · exact Nat.lt_succ_self _
        · exact lt_trans (hV x hxv) (Nat.lt_succ_self _))

theorem dfs_chain (nb : NodeRecordBatch) (k j : Nat) (hjk : j ≤ k) :
    ∀ (d i fuel : Nat) (V : Finset NodeId), i + d = j → 1 ≤ i → d < fuel →
      (∀ x ∈ V, x < i) →
      dfsAux (Graph.mk nb (EdgeRecordBatch.ofEdges (chainEdges k))) j fuel
          [(i, List.range' 1 i)] V = some (some (List.range' 1 j)) := by
  intro d
  induction d with
  | zero =>
    intro i fuel V hij hi1 hfuel hV
    obtain ⟨f, rfl⟩ : ∃ f, fuel = f + 1 := ⟨fuel - 1, by omega⟩
    rw [dfsAux_cons, if_pos (by omega : i = j), show i = j from by omega]
  | succ d ih =>
    intro i fuel V hij hi1 hfuel hV
    obtain ⟨f, rfl⟩ : ∃ f, fuel = f + 1 := ⟨fuel - 1, by omega⟩
    have hiv : i ∉ V := fun hmem => absurd (hV i hmem) (lt_irrefl i)
    rw [dfsAux_cons, if_neg (by omega : ¬ i = j), if_neg hiv,
      chain_scanSuccessors nb k i hi1 (by omega)]
    have hkeep : (i + 1) ∉ insert i V := by
      rw [Finset.mem_insert]
      push_neg
      have hns : ¬ (i + 1 < i) := by omega
      exact ⟨by omega, fun h => absurd (hV (i + 1) h) hns⟩
    rw [List.filter_cons, if_pos (by simpa using hkeep)]
    simp only [List.filter_nil, List.map_cons, List.map_nil, List.reverse_cons,
      List.reverse_nil, List.nil_append, List.append_nil]
    have hpath : List.range' 1 i ++ [i + 1] = List.range' 1 (i + 1) := by
      rw [List.range'_concat]
      have : 1 + 1 * i = i + 1 := by omega
      rw [this]
    rw [hpath]
    exact ih (i + 1) f (insert i V) (by omega) (by omega) (by omega)
      (fun x hx => by
        rcases Finset.mem_insert.mp hx with rfl | hxv
        · exact Nat.lt_succ_self _
        · exact lt_trans (hV x hxv) (Nat.lt_succ_self _))

theorem dijkstra_chain (nb : NodeRecordBatch) (k j : Nat) (hjk : j ≤ k) :
    ∀ (d i fuel : Nat), i + d = j → 1 ≤ i → d < fuel →
      dijkstraAux (Graph.mk nb (EdgeRecordBatch.ofEdges (chainEdges k))) j fuel
          (chainDist i) (chainPrev i) [(0, i)] = some (some (chainPrev j)) := by
  intro d
  induction d with
  | zero =>
    intro i fuel hij hi1 hfuel
    obtain ⟨f, rfl⟩ : ∃ f, fuel = f + 1 := ⟨fuel - 1, by omega⟩
    simp only [dijkstraAux_succ, show heapPopMin [(0, i)] = some ((0, i), []) from rfl]
    rw [if_pos (by omega : i = j), show i = j from by omega]
  | succ d ih =>
    intro i fuel hij hi1 hfuel
    obtain ⟨f, rfl⟩ : ∃ f, fuel = f + 1 := ⟨fuel - 1, by omega⟩
    simp only [dijkstraAux_succ, show heapPopMin [(0, i)] = some ((0, i), []) from rfl]
    rw [if_neg (by omega : ¬ i = j), if_neg (Nat.not_lt_zero _),
      chain_neighborsWWD nb k i hi1 (by omega)]
    simp only [List.foldl_cons, List.foldl_nil, dijkstraRelax]
    rw [if_pos (Or.inl (by rw [chainDist_lookup, if_neg (by omega)]; simp))]
    simp only [u32add_zero_weight]
    rw [← chainDist_succ, ← chainPrev_succ i hi1]
    exact ih (i + 1) f (by omega) (by omega) (by omega)

theorem a_chain (nb : NodeRecordBatch) (k j : Nat) (hjk : j ≤ k) :
    ∀ (d i fuel : Nat), i + d = j → 1 ≤ i → d < fuel →
      aAux (Graph.mk nb (EdgeRecordBatch.ofEdges (chainEdges k))) j fuel
          (chainDist i) (chainPrev i) [(0, i)] = some (some (chainPrev j)) := by
  intro d
  induction d with
  | zero =>
    intro i fuel hij hi1 hfuel
    obtain ⟨f, rfl⟩ : ∃ f, fuel = f + 1 := ⟨fuel - 1, by omega⟩
    simp only [aAux_succ, show heapPopMin [(0, i)] = some ((0, i), []) from rfl]
    rw [if_pos (by omega : i = j), show i = j from by omega]
  | succ d ih =>
    intro i fuel hij hi1 hfuel
    obtain ⟨f, rfl⟩ : ∃ f, fuel = f + 1 := ⟨fuel - 1, by omega⟩
    simp only [aAux_succ, show heapPopMin [(0, i)] = some ((0, i), []) from rfl]
    rw [if_neg (by omega : ¬ i = j),
      chain_neighborsWWD nb k i hi1 (by omega)]
    have hbase : ((chainDist i).lookup i).getD 0 = 0 := by
      rw [chainDist_lookup, if_pos (by omega)]
      rfl
    rw [hbase]
    simp only [List.foldl_cons, List.foldl_nil, aRelax]
    rw [if_pos (by rw [chainDist_lookup, if_neg (by omega)]; norm_num [u32add_zero_weight])]
    simp only [u32add_zero_weight]
    rw [← chainDist_succ, ← chainPrev_succ i hi1]
    exact ih (i + 1) f (by omega) (by omega) (by omega)

theorem chainPrev_length (j : Nat) : (chainPrev j).length = j - 1 := by
  simp [chainPrev]

theorem chain_reconstruct (j : Nat) (hj : 1 ≤ j) :
    reconstructAux (chainPrev j) ((chainPrev j).length + 1) j [j] =
      some (List.range' 1 j) := by
  rw [chainPrev_length]
  rw [reconstruct_chain j j (j - 1 + 1) [j] hj (le_refl j) (by omega)]
  have hconcat : List.range' 1 j = List.range' 1 (j - 1) ++ [j] := by
    have h := @List.range'_concat 1 1 (j - 1)
    have e1 : (j - 1) + 1 = j := by omega
    have e2 : 1 + 1 * (j - 1) = j := by omega
    rw [e1, e2] at h
    exact h
  rw [hconcat]
  simp [List.reverse_append]

/-- C1 (confirmed): on the graph built from the edge list `(i → i+1)` for
`i = 1..k`, each of breadth-first search, depth-first search, Dijkstra
search and best-first search from `1` to any `j ≤ k` (with `1 ≤ j`)
returns the path `[1, 2, ..., j]` (stated as `List.range' 1 j`). -/
theorem c1_chain_searches (k j : Nat) (g : Graph)
    (hg : GraphBuilder.build ⟨none, some (chainEdges k)⟩ = .ok g)
    (hj1 : 1 ≤ j) (hjk : j ≤ k) :
    breath_first_search g 1 j = some (List.range' 1 j) ∧
    depth_first_search g 1 j = some (List.range' 1 j) ∧
    dijkstra_search g 1 j = some (List.range' 1 j) ∧
    a_search g 1 j = some (List.range' 1 j) := by
  rw [build_some] at hg
  obtain rfl : (Graph.mk (NodeRecordBatch.ofNodes ((none : Option (List Node)).getD
      (deriveNodes (chainEdges k)))) (EdgeRecordBatch.ofEdges (chainEdges k))) = g :=
    Except.ok.inj hg
  set nbv : NodeRecordBatch := NodeRecordBatch.ofNodes ((none : Option (List Node)).getD
    (deriveNodes (chainEdges k))) with hnbv
  have hnum : (Graph.mk nbv (EdgeRecordBatch.ofEdges (chainEdges k))).num_edges = k := by
    rw [graph_mk_num_edges, chainEdges_length]
  have hkb : k ≤ (k + 1) * (k + 1) :=
    le_trans (Nat.le_succ k) (Nat.le_mul_of_pos_left _ (by omega))
  refine ⟨?_, ?_, ?_, ?_⟩
  · rw [breath_first_search,
      show ([(1, [1])] : List (NodeId × List NodeId)) = [(1, List.range' 1 1)] from rfl]
    rw [bfs_chain nbv k j hjk (j - 1) 1 _ ∅ (by omega) (le_refl 1)
      (by rw [bfsFuel, hnum]; omega)
      (fun x hx => absurd hx (Finset.not_mem_empty x))]
    rfl
  · rw [depth_first_search,
      show ([(1, [1])] : List (NodeId × List NodeId)) = [(1, List.range' 1 1)] from rfl]
    rw [dfs_chain nbv k j hjk (j - 1) 1 _ ∅ (by omega) (le_refl 1)
      (by rw [dfsFuel, hnum]; omega)
      (fun x hx => absurd hx (Finset.not_mem_empty x))]
    rfl
  · rw [dijkstra_search]
    have hstep := dijkstra_chain nbv k j hjk (j - 1) 1
      (searchFuel (Graph.mk nbv (EdgeRecordBatch.ofEdges (chainEdges k))))
      (by omega) (le_refl 1) (by rw [searchFuel, hnum]; omega)
    rw [show chainDist 1 = [(1, 0)] from rfl,
      show chainPrev 1 = ([] : List (NodeId × NodeId)) from rfl] at hstep
    rw [hstep]
    exact chain_reconstruct j hj1
  · rw [a_search]
    have hstep := a_chain nbv k j hjk (j - 1) 1
      (searchFuel (Graph.mk nbv (EdgeRecordBatch.ofEdges (chainEdges k))))
      (by omega) (le_refl 1) (by rw [searchFuel, hnum]; omega)
    rw [show chainDist 1 = [(1, 0)] from rfl,
      show chainPrev 1 = ([] : List (NodeId × NodeId)) from rfl] at hstep
    rw [hstep]
    exact chain_reconstruct j hj1

/-- C1 witness: the four searches on the concrete chain with `k = 3`,
`j = 2`. -/
theorem c1_witness :
    breath_first_search
        (Graph.mk (NodeRecordBatch.ofNodes (deriveNodes (chainEdges 3)))
          (EdgeRecordBatch.ofEdges (chainEdges 3))) 1 2 = some [1, 2] ∧
    depth_first_search
        (Graph.mk (NodeRecordBatch.ofNodes (deriveNodes (chainEdges 3)))
          (EdgeRecordBatch.ofEdges (chainEdges 3))) 1 2 = some [1, 2] ∧
    dijkstra_search
        (Graph.mk (NodeRecordBatch.ofNodes (deriveNodes (chainEdges 3)))
          (EdgeRecordBatch.ofEdges (chainEdges 3))) 1 2 = some [1, 2] ∧
    a_search
        (Graph.mk (NodeRecordBatch.ofNodes (deriveNodes (chainEdges 3)))
          (EdgeRecordBatch.ofEdges (chainEdges 3))) 1 2 = some [1, 2] :=
  c1_chain_searches 3 2 _ (build_some none (chainEdges 3)) (by decide) (by decide)

/-! ### C10 -/

/-- C10 (confirmed): every search accepts the start node as the destination
before consulting the node or edge tables: for every graph (even one in
which `n` occurs nowhere) and every id `n`, all four searches from `n` to
`n` return `Some([n])`. -/
theorem c10_start_is_end (g : Graph) (n : NodeId) :
    breath_first_search g n n = some [n] ∧
    depth_first_search g n n = some [n] ∧
    dijkstra_search g n n = some [n] ∧
    a_search g n n = some [n] := by
  refine ⟨?_, ?_, ?_, ?_⟩
  · rw [breath_first_search,
      show bfsFuel g = ((g.num_edges + 1) * (g.num_edges + 1) + 1) + 1 from rfl]
    simp [bfsAux]
  · rw [depth_first_search,
      show dfsFuel g = ((g.num_edges + 1) * (g.num_edges + 1) + 1) + 1 from rfl]
    simp [dfsAux]
  · rw [dijkstra_search,
      show searchFuel g = ((g.num_edges + 1) * 2 ^ 32 + 1) + 1 from rfl]
    simp [dijkstraAux, heapPopMin, reconstructAux]
  · rw [a_search,
      show searchFuel g = ((g.num_edges + 1) * 2 ^ 32 + 1) + 1 from rfl]
    simp [aAux, heapPopMin, reconstructAux]

/-! ### C6: breadth-first search soundness, completeness and minimality -/

theorem mem_scanSuccessors_iff (g : Graph) (u v : NodeId) :
    v ∈ g.scanSuccessors u ↔ g.HasEdge u v := by
  unfold Graph.scanSuccessors Graph.HasEdge
  constructor
  · intro hv
    rcases List.mem_map.mp hv with ⟨idx, hidx, rfl⟩
    rcases List.mem_filter.mp hidx with ⟨hrange, hsrc⟩
    exact ⟨idx, List.mem_range.mp hrange, by simpa using hsrc, rfl⟩
  · rintro ⟨idx, hlt, hsrc, rfl⟩
    exact List.mem_map.mpr ⟨idx,
      List.mem_filter.mpr ⟨List.mem_range.mpr hlt, by simpa using hsrc⟩, rfl⟩

theorem gpath_ne_nil {g : Graph} {u w : NodeId} {q : List NodeId}
    (h : GPath g u w q) : q ≠ [] := by
  cases h <;> simp

theorem gpath_head {g : Graph} {u w : NodeId} {q : List NodeId}
    (h : GPath g u w q) : q.head? = some u := by
  cases h <;> rfl

theorem gpath_single {g : Graph} {u w : NodeId}
    (h : GPath g u w [u]) : w = u := by
  cases h with
  | single => rfl
  | cons hedge hq => exact absurd rfl (gpath_ne_nil hq)

theorem gpath_append {g : Graph} {s v t : NodeId} {p : List NodeId}
    (h : GPath g s v p) : g.HasEdge v t → GPath g s t (p ++ [t]) := by
  induction h with
  | single u => exact fun hedge => GPath.cons hedge (GPath.single t)
  | cons hstep htail ih => exact fun hedge => GPath.cons hstep (ih hedge)

theorem gpath_cons_inv {g : Graph} {u w x : NodeId} {l : List NodeId}
    (h : GPath g u w (u :: x :: l)) : g.HasEdge u x ∧ GPath g x w (x :: l) := by
  cases h with
  | cons hedge hq =>
    have hh := gpath_head hq
    simp only [List.head?_cons, Option.some.injEq] at hh
    subst hh
    exact ⟨hedge, hq⟩

theorem gpath_suffix {g : Graph} {u w : NodeId} {π : List NodeId}
    (h : GPath g u w π) : ∀ v ∈ π, ∃ σ, GPath g v w (v :: σ) ∧ v ∉ σ ∧
      (v :: σ) <:+ π := by
  induction h with
  | single a =>
    intro v hv
    rcases List.mem_singleton.mp hv with rfl
    exact ⟨[], GPath.single v, by simp, List.suffix_refl _⟩
  | cons hedge hq ih =>
    rename_i a b c q
    intro v hv
    by_cases hvq : v ∈ q
    · rcases ih v hvq with ⟨σ, hσ, hvσ, hsuf⟩
      exact ⟨σ, hσ, hvσ, hsuf.trans (List.suffix_cons a q)⟩
    · have hva : v = a := by
        rcases List.mem_cons.mp hv with rfl | hmem
        · rfl
        · exact absurd hmem hvq
      subst hva
      have hhq := gpath_head hq
      refine ⟨q, ?_, hvq, List.suffix_refl _⟩
      exact GPath.cons hedge hq

theorem sortOK_tail {a : Nat} {L : List Nat} (h : SortOK (a :: L)) : SortOK L := by
  obtain ⟨hsort, hbnd⟩ := h
  refine ⟨hsort.of_cons, ?_⟩
  intro x hx y hy
  have hxa : x ≤ a + 1 := hbnd x (List.mem_cons_of_mem _ hx) a rfl
  cases L with
  | nil => cases hx
  | cons b L' =>
    have hab : a ≤ b := (List.sorted_cons.mp hsort).1 b (List.mem_cons_self _ _)
    have hyb : b = y := by simpa using hy
    omega

theorem sortOK_head_le {a : Nat} {L : List Nat} (h : SortOK (a :: L)) :
    ∀ x ∈ a :: L, a ≤ x := by
  intro x hx
  rcases List.mem_cons.mp hx with rfl | hx'
  · exact le_refl _
  · exact (List.sorted_cons.mp h.1).1 x hx'

theorem sortOK_expand {a : Nat} {L M : List Nat} (h : SortOK (a :: L))
    (hM : ∀ x ∈ M, x = a + 1) : SortOK (L ++ M) := by
  obtain ⟨hsort, hbnd⟩ := h
  have hLa : ∀ x ∈ L, a ≤ x := (List.sorted_cons.mp hsort).1
  have hLbnd : ∀ x ∈ L, x ≤ a + 1 := fun x hx => hbnd x (List.mem_cons_of_mem _ hx) a rfl
  constructor
  · rw [List.Sorted, List.pairwise_append]
    refine ⟨(List.sorted_cons.mp hsort).2, ?_, ?_⟩
    · rw [List.pairwise_iff_forall_sublist]
      intro x y hsub
      have hx := hM x (hsub.subset (List.mem_cons_self _ _))
      have hy := hM y (hsub.subset (List.mem_cons_of_mem _ (List.mem_cons_self _ _)))
      omega
    · intro x hx y hy
      have := hLbnd x hx
      have := hM y hy
      omega
  · intro x hx y hy
    cases L with
    | nil =>
      simp only [List.nil_append] at hx hy
      have hxa := hM x hx
      cases M with
      | nil => cases hx
      | cons m M' =>
        have hym : m = y := by simpa using hy
        have hma := hM m (List.mem_cons_self _ _)
        omega
    | cons b L' =>
      have hyb : b = y := by simpa using hy
      have hab : a ≤ b := hLa b (List.mem_cons_self _ _)
      rcases List.mem_append.mp hx with hxL | hxM
      · have := hLbnd x hxL
        omega
      · have := hM x hxM
        omega

theorem bfsAux_shortest (g : Graph) (s endId : NodeId) :
    ∀ (fuel : Nat) (Q : List (NodeId × List NodeId)) (V : Finset NodeId),
      (∀ e ∈ Q, GPath g s e.1 e.2) →
      SortOK (Q.map (fun e => e.2.length)) →
      endId ∉ V →
      (∀ (w : NodeId) (r : List NodeId), GPath g s w r → w ∉ V →
        ∃ e ∈ Q, ∃ τ, GPath g e.1 w (e.1 :: τ) ∧ (∀ x ∈ e.1 :: τ, x ∉ V) ∧
          e.2.length + τ.length ≤ r.length) →
      ∀ res, bfsAux g endId fuel Q V = some res →
        (∀ p, res = some p → GPath g s endId p ∧
          ∀ r, GPath g s endId r → p.length ≤ r.length) ∧
        (res = none → ∀ r, ¬ GPath g s endId r) := by
  intro fuel
  induction fuel with
  | zero =>
    intro Q V _ _ _ _ res hres
    exact absurd hres (by simp [bfsAux])
  | succ fuel ih =>
    intro Q V hok hsort hend hinv res hres
    cases Q with
    | nil =>
      rw [bfsAux_nil] at hres
      obtain rfl : none = res := Option.some.inj hres
      refine ⟨fun p hp => Option.noConfusion hp, fun _ r hr => ?_⟩
      rcases hinv endId r hr hend with ⟨e, he, _⟩
      cases he
    | cons head rest =>
      obtain ⟨c, p⟩ := head
      rw [bfsAux_cons] at hres
      by_cases hceq : c = endId
      · subst hceq
        rw [if_pos rfl] at hres
        obtain rfl : some p = res := Option.some.inj hres
        refine ⟨?_, fun h => Option.noConfusion h⟩
        intro p' hp'
        obtain rfl : p = p' := Option.some.inj hp'
        refine ⟨hok (c, p) (List.mem_cons_self _ _), ?_⟩
        intro r hr
        rcases hinv c r hr hend with ⟨e, heQ, τ, hτp, hτav, hbnd⟩
        have hsortc : SortOK (p.length :: rest.map (fun en => en.2.length)) := by
          simpa using hsort
        have hpmin : p.length ≤ e.2.length := by
          refine sortOK_head_le hsortc _ ?_
          rcases List.mem_cons.mp heQ with rfl | hR
          · exact List.mem_cons_self _ _
          · exact List.mem_cons_of_mem _ (List.mem_map.mpr ⟨e, hR, rfl⟩)
        omega
      · rw [if_neg hceq] at hres
        by_cases hcv : c ∈ V
        · rw [if_pos hcv] at hres
          refine ih rest V (fun e he => hok e (List.mem_cons_of_mem _ he))
            (sortOK_tail hsort) hend ?_ res hres
          intro w r hr hwv
          rcases hinv w r hr hwv with ⟨e, heQ, τ, hτp, hτav, hbnd⟩
          rcases List.mem_cons.mp heQ with rfl | heR
          · exact absurd hcv (hτav c (List.mem_cons_self _ _))
          · exact ⟨e, heR, τ, hτp, hτav, hbnd⟩
        · rw [if_neg hcv] at hres
          refine ih (rest ++ (g.scanSuccessors c).map (fun t => (t, p ++ [t])))
            (insert c V) ?_ ?_ ?_ ?_ res hres
          · intro e he
            rcases List.mem_append.mp he with heR | heP
            · exact hok e (List.mem_cons_of_mem _ heR)
            · rcases List.mem_map.mp heP with ⟨t, ht, rfl⟩
              exact gpath_append (hok (c, p) (List.mem_cons_self _ _))
                ((mem_scanSuccessors_iff g c t).mp ht)
          · rw [List.map_append]
            refine sortOK_expand hsort ?_
            intro x hx
            rcases List.mem_map.mp hx with ⟨e, he, rfl⟩
            rcases List.mem_map.mp he with ⟨t, ht, rfl⟩
            simp
          · rw [Finset.mem_insert]
            push_neg
            exact ⟨fun h => hceq h.symm, hend⟩
          · intro w r hr hwv'
            have hwv : w ∉ V := fun h => hwv' (Finset.mem_insert_of_mem h)
            have hwc : w ≠ c := fun h => hwv' (h ▸ Finset.mem_insert_self c V)
            rcases hinv w r hr hwv with ⟨e, heQ, τ, hτp, hτav, hbnd⟩
            by_cases hcpath : c ∈ e.1 :: τ
            · rcases gpath_suffix hτp c hcpath with ⟨σ, hσp, hcσ, hsuf⟩
              cases σ with
              | nil => exact absurd (gpath_single hσp) hwc
              | cons x σ' =>
                obtain ⟨hedge, hxp⟩ := gpath_cons_inv hσp
                refine ⟨(x, p ++ [x]), ?_, σ', hxp, ?_, ?_⟩
                · exact List.mem_append_right _
                    (List.mem_map.mpr ⟨x, (mem_scanSuccessors_iff g c x).mpr hedge, rfl⟩)
                · intro y hy
                  have hyπ : y ∈ e.1 :: τ := hsuf.subset (List.mem_cons_of_mem _ hy)
                  rw [Finset.mem_insert]
                  push_neg
                  refine ⟨?_, hτav y hyπ⟩
                  intro hyc
                  subst hyc
                  exact hcσ hy
                · have hsuflen : (x :: σ').length + 1 ≤ τ.length + 1 := by
                    have hl := hsuf.length_le
                    simpa using hl
                  have hsortc : SortOK (p.length :: rest.map (fun en => en.2.length)) := by
                    simpa using hsort
                  have hpmin : p.length ≤ e.2.length := by
                    refine sortOK_head_le hsortc _ ?_
                    rcases List.mem_cons.mp heQ with rfl | hR
                    · exact List.mem_cons_self _ _
                    · exact List.mem_cons_of_mem _ (List.mem_map.mpr ⟨e, hR, rfl⟩)
                  have hlen : (p ++ [x]).length = p.length + 1 := by simp
                  simp only [List.length_cons] at hsuflen
                  show (p ++ [x]).length + σ'.length ≤ r.length
                  omega
            · have heR : e ∈ rest := by
                rcases List.mem_cons.mp heQ with rfl | h
                · exact absurd (List.mem_cons_self _ _) hcpath
                · exact h
              refine ⟨e, List.mem_append_left _ heR, τ, hτp, ?_, hbnd⟩
              intro y hy
              rw [Finset.mem_insert]
              push_neg
              exact ⟨fun hyc => hcpath (hyc ▸ hy), hτav y hy⟩

/-- C6 (confirmed): for every graph and every pair of ids joined by at least
one directed path (witnessed by `hr`), breadth-first search returns
`Some(p)` where `p` is a valid path from `start` to `end` whose length —
hence whose number of edges — is minimal among all such paths. -/
theorem c6_bfs_shortest (g : Graph) (s e : NodeId) (r : List NodeId)
    (hr : GPath g s e r) :
    ∃ p, breath_first_search g s e = some p ∧ GPath g s e p ∧
      ∀ q, GPath g s e q → p.length ≤ q.length := by
  have hQ0 : ∀ en ∈ [(s, ([s] : List NodeId))], en.1 ∈ g.frontierCand s := by
    intro en hen
    rcases List.mem_singleton.mp hen with rfl
    exact Finset.mem_insert_self _ _
  have hm0 : bfsMeasure g s [(s, [s])] ∅ < bfsFuel g := by
    unfold bfsMeasure bfsFuel
    rw [Finset.sdiff_empty, List.length_singleton]
    have hmul : (g.frontierCand s).card * (g.num_edges + 1) ≤
        (g.num_edges + 1) * (g.num_edges + 1) :=
      Nat.mul_le_mul_right _ (frontierCand_card g s)
    omega
  have hne := bfsAux_ne_none g s e (bfsFuel g) [(s, [s])] ∅ hQ0 hm0
  cases hres : bfsAux g e (bfsFuel g) [(s, [s])] ∅ with
  | none => exact absurd hres hne
  | some res =>
    have hok0 : ∀ en ∈ [(s, ([s] : List NodeId))], GPath g s en.1 en.2 := by
      intro en hen
      rcases List.mem_singleton.mp hen with rfl
      exact GPath.single s
    have hsort0 : SortOK ([(s, ([s] : List NodeId))].map (fun en => en.2.length)) := by
      constructor
      · simp
      · intro x hx y hy
        simp only [List.map_cons, List.map_nil, List.length_cons, List.length_nil] at hx hy
        rcases List.mem_singleton.mp hx with rfl
        have : (1 : Nat) = y := by simpa using hy
        omega
    have hinv0 : ∀ (w : NodeId) (q : List NodeId), GPath g s w q → w ∉ (∅ : Finset NodeId) →
        ∃ en ∈ [(s, ([s] : List NodeId))], ∃ τ, GPath g en.1 w (en.1 :: τ) ∧
          (∀ x ∈ en.1 :: τ, x ∉ (∅ : Finset NodeId)) ∧
          en.2.length + τ.length ≤ q.length := by
      intro w q hq _
      cases q with
      | nil => exact absurd rfl (gpath_ne_nil hq)
      | cons a q' =>
        have ha : a = s := by
          have := gpath_head hq
          simpa using this
        subst ha
        exact ⟨(a, [a]), List.mem_cons_self _ _, q', hq,
          fun x _ => Finset.not_mem_empty x, by simp; omega⟩
    have hmain := bfsAux_shortest g s e (bfsFuel g) [(s, [s])] ∅ hok0 hsort0
      (Finset.not_mem_empty e) hinv0 res hres
    cases res with
    | none => exact absurd hr (hmain.2 rfl r)
    | some p =>
      refine ⟨p, ?_, (hmain.1 p rfl).1, (hmain.1 p rfl).2⟩
      rw [breath_first_search, hres]
      rfl

/-- C6 witness: the shortest-path statement on the concrete two-edge chain
with the concrete path `[1, 2]`. -/
theorem c6_witness :
    ∃ p, breath_first_search
        (Graph.mk (NodeRecordBatch.ofNodes (deriveNodes (chainEdges 2)))
          (EdgeRecordBatch.ofEdges (chainEdges 2))) 1 2 = some p ∧
      GPath (Graph.mk (NodeRecordBatch.ofNodes (deriveNodes (chainEdges 2)))
        (EdgeRecordBatch.ofEdges (chainEdges 2))) 1 2 p ∧
      ∀ q, GPath (Graph.mk (NodeRecordBatch.ofNodes (deriveNodes (chainEdges 2)))
        (EdgeRecordBatch.ofEdges (chainEdges 2))) 1 2 q → p.length ≤ q.length :=
  c6_bfs_shortest _ 1 2 [1, 2]
    (GPath.cons ⟨0, by decide, by decide, by decide⟩ (GPath.single 2))

end Graphz

